import Mathlib

/-!
# Ace template loader: include resolution and the two caches

A shallow embedding of `ace.go` and `read.go`.

* Go strings and byte slices are Lean `String`s.
* Go's `error` is a message (`Err`); a function returning `(x, error)` returns `Except Err x`.
* The package-level maps `templateCache` and `sourceCache` are the two fields of `World`,
  threaded explicitly through `readFiles` and `Load`.
* The filesystem (`ioutil.ReadFile`) is a function `fs` from a file name to a read result.
* File reads, include scans and the parse / compile steps are recorded in a list of `Event`s
  that every operation returns next to its result.
* `findIncludes` recurses for as long as new include paths turn up, so its embedding takes a
  bound on the recursion depth and returns `none` when the bound is reached.
* Functions of the package that live in other files (`newLine`, `isHelperMethodOf`,
  `InitializeOptions`, `ParseSource`, `CompileResult`) and `filepath.Join` are the fields of
  `Code`: every theorem holds for every choice of them.
-/

namespace Ace

/-! ## Data model -/

/-- Go's `error`, as its message. -/
abbrev Err := String

/-- Modelled from the spec: the `File` struct (declared outside `read.go`): a logical path
and the raw content. -/
structure File where
  path : String
  data : String
deriving DecidableEq, Repr

/-- Modelled from the spec: the constructor `NewFile` (declared outside `read.go`), which
stores its two arguments. -/
def NewFile (path data : String) : File := ⟨path, data⟩

/-- Modelled from the spec: the `source` struct (declared outside `read.go`): base file,
inner file and the ordered include files. -/
structure source where
  base : File
  inner : File
  includes : List File
deriving DecidableEq, Repr

/-- Modelled from the spec: the constructor `NewSource` (declared outside `read.go`), which
stores its three arguments. -/
def NewSource (base inner : File) (includes : List File) : source := ⟨base, inner, includes⟩

/-- Modelled from the spec: the `Options` struct (declared outside `read.go`): the fields
that `ace.go` and `read.go` read, and the dynamic-reload flag of the spec. -/
structure Options where
  BaseDirs : List String
  Extension : String
  Asset : Option (String → Except Err String)
  TemplateCache : Bool
  SourceCache : Bool
  DynamicReload : Bool

/-- Modelled from the spec: the `line` struct (declared outside `read.go`), with the fields
`findIncludePaths` reads (`no`, `tokens`) and the text and file it was built from. -/
structure Line where
  no : Nat
  str : String
  tokens : List String
  file : File

/-- The functions `ace.go` and `read.go` call but do not define. `R` is the type of a parse
result and `T` the type of a compiled template. -/
structure Code (R T : Type) where
  InitializeOptions : Option Options → Options
  newLine : Nat → String → Options → File → Line
  isHelperMethodOf : Line → String → Bool
  helperMethodNameInclude : String
  fileName : Line → String
  Join : String → String → String
  ParseSource : source → Options → Except Err R
  CompileResult : String → R → Options → Except Err T

/-- The two package-level caches. A Go map is a function from keys to optional values. -/
structure World (T : Type) where
  templateCache : String → Option T
  sourceCache : String → Option source

/-- What an operation does besides computing its result. -/
inductive Event where
  | readFile (path : String)
  | asset (name : String)
  | osRead (name : String)
  | findIncludes (path : String)
  | ParseSource
  | CompileResult
deriving DecidableEq, Repr

/-- The logical paths passed to `readFile`, in call order. -/
def readPaths : List Event → List String
  | [] => []
  | Event.readFile p :: l => p :: readPaths l
  | _ :: l => readPaths l

/-- The paths of the target files scanned by `findIncludes`, in call order. -/
def scanPaths : List Event → List String
  | [] => []
  | Event.findIncludes p :: l => p :: scanPaths l
  | _ :: l => scanPaths l

/-! ## Special characters -/

def cr : Char := '\r'
def lf : Char := '\n'
def dot : String := "."
def colon : String := ":"

/-! ## Caches -/

def emptyWorld {T : Type} : World T := ⟨fun _ => none, fun _ => none⟩

def getTemplateCache {T : Type} (w : World T) (name : String) : Option T :=
  w.templateCache name

def setTemplateCache {T : Type} (w : World T) (name : String) (tpl : T) : World T :=
  { w with templateCache := fun k => if k = name then some tpl else w.templateCache k }

def FlushTemplateCache {T : Type} (w : World T) : World T :=
  { w with templateCache := fun _ => none }

def getSourceCache {T : Type} (w : World T) (name : String) : Option source :=
  w.sourceCache name

def setSourceCache {T : Type} (w : World T) (name : String) (src : source) : World T :=
  { w with sourceCache := fun k => if k = name then some src else w.sourceCache k }

def FlushSourceCache {T : Type} (w : World T) : World T :=
  { w with sourceCache := fun _ => none }

/-! ## Line endings and include directives -/

/-- Go: `strings.Replace(s, "\r\n", "\n", -1)` on the characters of `s`. -/
def replaceCRLF : List Char → List Char
  | [] => []
  | [c] => [c]
  | c :: d :: rest =>
    if c = cr ∧ d = lf then lf :: replaceCRLF rest else c :: replaceCRLF (d :: rest)

/-- Go: `strings.Replace(s, "\r", "\n", -1)` on the characters of `s`. -/
def replaceCR : List Char → List Char
  | [] => []
  | c :: rest => (if c = cr then lf else c) :: replaceCR rest

/-- Replaces the line feed codes with LF. -/
def formatLF (s : String) : String :=
  String.mk (replaceCR (replaceCRLF s.data))

/-- Go: `strings.Split(s, "\n")` on the characters of `s`: one more piece than there are
line feeds. -/
def splitLF : List Char → List (List Char)
  | [] => [[]]
  | c :: rest =>
    if c = lf then [] :: splitLF rest
    else
      match splitLF rest with
      | [] => [[c]]
      | l :: ls => (c :: l) :: ls

/-- The message of the error `findIncludePaths` returns. -/
def noTemplateNameErr (fileName : String) (no : Nat) : Err :=
  "no template name is specified [file: " ++ fileName ++ "][line: " ++ toString no ++ "]"

/-- The loop of `findIncludePaths` over the lines from index `i` on; `acc` is
`includePaths`. -/
def findIncludePathsLoop {R T : Type} (c : Code R T) (opts : Options) (f : File) :
    Nat → List String → List String → Except Err (List String)
  | _, [], acc => Except.ok acc
  | i, str :: rest, acc =>
    let ln := c.newLine (i + 1) str opts f
    if c.isHelperMethodOf ln c.helperMethodNameInclude then
      if ln.tokens.length < 3 then
        Except.error (noTemplateNameErr (c.fileName ln) ln.no)
      else
        findIncludePathsLoop c opts f (i + 1) rest (acc ++ [ln.tokens.getD 2 ""])
    else
      findIncludePathsLoop c opts f (i + 1) rest acc

/-- Finds and returns include paths. -/
def findIncludePaths {R T : Type} (c : Code R T) (data : String) (opts : Options) (f : File) :
    Except Err (List String) :=
  findIncludePathsLoop c opts f 0 ((splitLF (formatLF data).data).map String.mk) []

/-- Returns whether `files` has a file with the given path. -/
def hasFile : List File → String → Bool
  | [], _ => false
  | f :: rest, path => if f.path = path then true else hasFile rest path

/-! ## Reading files -/

/-- One iteration of the loop of `readFile`: the asset hook when there is one (and then the
filesystem is not tried), the filesystem otherwise. -/
def readCandidate (fs : String → Except Err String) (opts : Options) (name : String) :
    Except Err String × List Event :=
  match opts.Asset with
  | some asset => (asset name, [Event.asset name])
  | none => (fs name, [Event.osRead name])

/-- The loop of `readFile` over the directories `v :: rest`. The directory list is never
empty, so when the loop ends without a successful read `err` is the failure of the last
candidate. -/
def readFileLoop {R T : Type} (c : Code R T) (fs : String → Except Err String)
    (path : String) (opts : Options) :
    String → List String → Except Err File × List Event
  | v, [] =>
    match readCandidate fs opts (c.Join v (path ++ dot ++ opts.Extension)) with
    | (Except.ok data, l) => (Except.ok (NewFile path data), l)
    | (Except.error err, l) => (Except.error err, l)
  | v, v2 :: rest =>
    match readCandidate fs opts (c.Join v (path ++ dot ++ opts.Extension)) with
    | (Except.ok data, l) => (Except.ok (NewFile path data), l)
    | (Except.error _, l) =>
      match readFileLoop c fs path opts v2 rest with
      | (r, l2) => (r, l ++ l2)

/-- Reads a file and returns a file struct. With no base directory the only candidate
directory is the empty one. -/
def readFile {R T : Type} (c : Code R T) (fs : String → Except Err String)
    (path : String) (opts : Options) : Except Err File × List Event :=
  if path.length > 0 then
    match opts.BaseDirs with
    | [] =>
      match readFileLoop c fs path opts "" [] with
      | (r, l) => (r, Event.readFile path :: l)
    | v :: rest =>
      match readFileLoop c fs path opts v rest with
      | (r, l) => (r, Event.readFile path :: l)
  else
    (Except.ok (NewFile path ""), [Event.readFile path])

/-! ## Include discovery -/

/-- What `findIncludes` returns: `none` when the depth bound is reached, otherwise the error
or the extended `includes` list, and the events. On an error `readFiles` drops the list. -/
abbrev Found := Option (Except Err (List File) × List Event)

/-- The loop of `findIncludes` over `includePaths`; `descend` is the recursive call. -/
def findIncludesLoop (descend : String → List File → File → Found)
    (read : String → Except Err File × List Event) :
    List String → List File → Found
  | [], includes => some (Except.ok includes, [])
  | includePath :: rest, includes =>
    if hasFile includes includePath then
      findIncludesLoop descend read rest includes
    else
      match read includePath with
      | (Except.error err, l1) => some (Except.error err, l1)
      | (Except.ok f, l1) =>
        match descend f.data (includes ++ [f]) f with
        | none => none
        | some (Except.error err, l2) => some (Except.error err, l1 ++ l2)
        | some (Except.ok includes2, l2) =>
          match findIncludesLoop descend read rest includes2 with
          | none => none
          | some (r, l3) => some (r, l1 ++ l2 ++ l3)

/-- Finds and adds include files. The first argument bounds the recursion depth. -/
def findIncludes {R T : Type} (c : Code R T) (fs : String → Except Err String)
    (opts : Options) : Nat → String → List File → File → Found
  | 0, _, _, _ => none
  | fuel + 1, data, includes, targetFile =>
    match findIncludePaths c data opts targetFile with
    | Except.error err => some (Except.error err, [Event.findIncludes targetFile.path])
    | Except.ok includePaths =>
      match findIncludesLoop (fun d i t => findIncludes c fs opts fuel d i t)
          (fun p => readFile c fs p opts) includePaths includes with
      | none => none
      | some (r, l) => some (r, Event.findIncludes targetFile.path :: l)

/-! ## Assembling the source -/

/-- What `readFiles` returns: `none` when the depth bound is reached, otherwise the error or
the source, the caches after the call, and the events. -/
abbrev Read (T : Type) := Option (Except Err source × World T × List Event)

/-- The body of `readFiles` after the cache lookup. -/
def readFilesMiss {R T : Type} (c : Code R T) (fs : String → Except Err String) (fuel : Nat)
    (basePath innerPath : String) (opts : Options) (w : World T) : Read T :=
  let name := basePath ++ colon ++ innerPath
  match readFile c fs basePath opts with
  | (Except.error err, l1) => some (Except.error err, w, l1)
  | (Except.ok base, l1) =>
    match readFile c fs innerPath opts with
    | (Except.error err, l2) => some (Except.error err, w, l1 ++ l2)
    | (Except.ok inner, l2) =>
      match findIncludes c fs opts fuel base.data [] base with
      | none => none
      | some (Except.error err, l3) => some (Except.error err, w, l1 ++ l2 ++ l3)
      | some (Except.ok includes1, l3) =>
        match findIncludes c fs opts fuel inner.data includes1 inner with
        | none => none
        | some (Except.error err, l4) => some (Except.error err, w, l1 ++ l2 ++ l3 ++ l4)
        | some (Except.ok includes, l4) =>
          let src := NewSource base inner includes
          if !opts.SourceCache then
            some (Except.ok src, setSourceCache w name src, l1 ++ l2 ++ l3 ++ l4)
          else
            some (Except.ok src, w, l1 ++ l2 ++ l3 ++ l4)

/-- Reads files and returns source for the parsing process. -/
def readFiles {R T : Type} (c : Code R T) (fs : String → Except Err String) (fuel : Nat)
    (basePath innerPath : String) (opts : Options) (w : World T) : Read T :=
  let name := basePath ++ colon ++ innerPath
  if !opts.SourceCache then
    match getSourceCache w name with
    | some src => some (Except.ok src, w, [])
    | none => readFilesMiss c fs fuel basePath innerPath opts w
  else
    readFilesMiss c fs fuel basePath innerPath opts w

/-! ## Loading a template -/

/-- What `Load` returns: `none` when the depth bound is reached, otherwise the error or the
template, the caches after the call, and the events. -/
abbrev Loaded (T : Type) := Option (Except Err T × World T × List Event)

/-- The body of `Load` after the cache lookup; `opts` is initialised. -/
def LoadMiss {R T : Type} (c : Code R T) (fs : String → Except Err String) (fuel : Nat)
    (basePath innerPath : String) (opts : Options) (w : World T) : Loaded T :=
  let name := basePath ++ colon ++ innerPath
  match readFiles c fs fuel basePath innerPath opts w with
  | none => none
  | some (Except.error err, w1, l1) => some (Except.error err, w1, l1)
  | some (Except.ok src, w1, l1) =>
    match c.ParseSource src opts with
    | Except.error err => some (Except.error err, w1, l1 ++ [Event.ParseSource])
    | Except.ok rslt =>
      match c.CompileResult name rslt opts with
      | Except.error err =>
        some (Except.error err, w1, l1 ++ [Event.ParseSource, Event.CompileResult])
      | Except.ok tpl =>
        if opts.TemplateCache then
          some (Except.ok tpl, setTemplateCache w1 name tpl,
            l1 ++ [Event.ParseSource, Event.CompileResult])
        else
          some (Except.ok tpl, w1, l1 ++ [Event.ParseSource, Event.CompileResult])

/-- Loads and returns an HTML template. `opts` may be nil. -/
def Load {R T : Type} (c : Code R T) (fs : String → Except Err String) (fuel : Nat)
    (basePath innerPath : String) (opts : Option Options) (w : World T) : Loaded T :=
  let opts := c.InitializeOptions opts
  let name := basePath ++ colon ++ innerPath
  if opts.TemplateCache then
    match getTemplateCache w name with
    | some tpl => some (Except.ok tpl, w, [])
    | none => LoadMiss c fs fuel basePath innerPath opts w
  else
    LoadMiss c fs fuel basePath innerPath opts w

/-- The paths of a list of files. -/
def paths (l : List File) : List String := l.map File.path

/-- What one run of the loop of `findIncludes` from `includes` leaves behind: the paths read
are pairwise distinct and new, every scanned file was read in this run, and on success the
list has grown by exactly the files read. -/
def WalkInv (includes : List File) (r : Except Err (List File)) (l : List Event) : Prop :=
  (readPaths l).Nodup ∧ (∀ p ∈ readPaths l, p ∉ paths includes) ∧
  (scanPaths l).Sublist (readPaths l) ∧
  ∀ includes2, r = Except.ok includes2 →
    ∃ new, includes2 = includes ++ new ∧ paths new = readPaths l ∧ scanPaths l = readPaths l

/-- What one call of `findIncludes` on `targetFile` leaves behind: a scan of the target
followed by a run of the loop. -/
def ScanInv (includes : List File) (targetFile : File) (r : Except Err (List File))
    (l : List Event) : Prop :=
  ∃ l2, l = Event.findIncludes targetFile.path :: l2 ∧ WalkInv includes r l2

/-! ## A sample instance

The functions of `Code` instantiated so that the model can be evaluated on concrete inputs. -/

/-- Splits at every space, like `splitLF` at every line feed. -/
def splitSpace : List Char → List (List Char)
  | [] => [[]]
  | c :: rest =>
    if c = ' ' then [] :: splitSpace rest
    else
      match splitSpace rest with
      | [] => [[c]]
      | l :: ls => (c :: l) :: ls

/-- Modelled from the spec: the tokens of a line are its whitespace-delimited words
(`newLine` is declared outside `read.go`). -/
def sampleTokens (str : String) : List String :=
  ((splitSpace str.data).filter (fun t => !t.isEmpty)).map String.mk

/-- Modelled from the spec: a line declares a directive when its first token is the reserved
word (`isHelperMethodOf` is declared outside `read.go`). -/
def sampleIsHelperMethodOf (ln : Line) (name : String) : Bool :=
  ln.tokens.head? == some name

/-- A sample `Code`: spec-modelled line functions, `Join` for clean relative names, a parse step
that rejects an empty inner file and a compile step that always succeeds. -/
def sampleCode : Code String String where
  InitializeOptions := fun o => o.getD ⟨[], "ace", none, false, false, false⟩
  newLine := fun no str _ f => ⟨no, str, sampleTokens str, f⟩
  isHelperMethodOf := sampleIsHelperMethodOf
  helperMethodNameInclude := "include"
  fileName := fun ln => ln.file.path
  Join := fun dir name => if dir = "" then name else dir ++ "/" ++ name
  ParseSource := fun src _ =>
    if src.inner.data = "" then Except.error "empty template" else Except.ok src.inner.data
  CompileResult := fun name r _ => Except.ok (name ++ "=" ++ r)

/-- A filesystem with two files that include each other. -/
def cycleFs (name : String) : Except Err String :=
  if name = "a.ace" then Except.ok "include = b"
  else if name = "b.ace" then Except.ok "include = a"
  else Except.error "no such file"

/-- Options with no base directory, extension `ace`, no asset hook and the three flags as
given. -/
def sampleOptions (templateCache sourceCache : Bool) : Options :=
  ⟨[], "ace", none, templateCache, sourceCache, false⟩

/-- The number of paths of `P` that are not yet the path of a file of `includes`: the
measure that bounds the depth of `findIncludes`. -/
def remaining (P : List String) (includes : List File) : Nat :=
  (P.toFinset.filter (fun p => p ∉ paths includes)).card

/-- Every include path that the content of `f` declares is the path of a file of
`includes` (and the directives of `f` are well formed). -/
def Declared {R T : Type} (c : Code R T) (opts : Options) (f : File) (includes : List File) :
    Prop :=
  ∃ ps, findIncludePaths c f.data opts f = Except.ok ps ∧ ∀ p ∈ ps, p ∈ paths includes

/-- The includes of a source are closed under inclusion: what the base file, the inner file
or an include file declares is among the includes. -/
def Closed {R T : Type} (c : Code R T) (opts : Options) (src : source) : Prop :=
  Declared c opts src.base src.includes ∧ Declared c opts src.inner src.includes ∧
  ∀ f ∈ src.includes, Declared c opts f src.includes

/-- A source for the key `a:` that no file of `cycleFs` gives. -/
def staleSource : source := ⟨⟨"a", "old"⟩, ⟨"", ""⟩, []⟩

/-- A filesystem in which nothing can be read. -/
def noFs (_ : String) : Except Err String := Except.error "no such file"

/-- The directories `readFile` tries, in order (`ds` in the code): the base directories, or
the empty directory when there is none. -/
def dirsOf (opts : Options) : List String :=
  if opts.BaseDirs.length = 0 then [""] else opts.BaseDirs

/-- The file name `readFile` tries for the directory `v` (`name` in the code). -/
def candidate {R T : Type} (c : Code R T) (path : String) (opts : Options) (v : String) :
    String :=
  c.Join v (path ++ dot ++ opts.Extension)

/-- Options with the base directories `D1`, `D2`, in this order. -/
def twoDirOptions : Options := ⟨["D1", "D2"], "ace", none, false, false, false⟩

/-- A filesystem with `x.ace` in `D2` only. -/
def onlyD2Fs (name : String) : Except Err String :=
  if name = "D2/x.ace" then Except.ok "two" else Except.error "no such file"

/-- A filesystem with `x.ace` in `D1` and in `D2`. -/
def bothFs (name : String) : Except Err String :=
  if name = "D1/x.ace" then Except.ok "one"
  else if name = "D2/x.ace" then Except.ok "two"
  else Except.error "no such file"

/-- The cache states the package can be in: the caches start empty and change only through
`Load` (with any arguments, on any filesystem) and the two flushes. -/
inductive Reachable {R T : Type} (c : Code R T) : World T → Prop where
  | start : Reachable c emptyWorld
  | load {w w1 : World T} (fs : String → Except Err String) (fuel : Nat)
      (basePath innerPath : String) (opts : Option Options) (r : Except Err T)
      (l : List Event) :
      Reachable c w → Load c fs fuel basePath innerPath opts w = some (r, w1, l) →
      Reachable c w1
  | flushTemplate {w : World T} : Reachable c w → Reachable c (FlushTemplateCache w)
  | flushSource {w : World T} : Reachable c w → Reachable c (FlushSourceCache w)

/-- The source cache does not answer for the key of the call: it is not consulted, or it has
no entry for the key. -/
def sourceMiss {T : Type} (opts : Options) (w : World T) (basePath innerPath : String) : Prop :=
  opts.SourceCache = false → getSourceCache w (basePath ++ colon ++ innerPath) = none

/-- The template cache does not answer for the key of the call: it is not consulted, or it
has no entry for the key. -/
def templateMiss {T : Type} (opts : Options) (w : World T) (basePath innerPath : String) :
    Prop :=
  opts.TemplateCache = true → getTemplateCache w (basePath ++ colon ++ innerPath) = none

/-- A filesystem whose only file `a.ace` includes a file that does not exist. -/
def danglingFs (name : String) : Except Err String :=
  if name = "a.ace" then Except.ok "include = zz" else Except.error "no such file"

/-- The all-LF version of a text, as the specification words it: in one pass, every CRLF
and every remaining lone CR is replaced by a single LF. It is compared with `formatLF`. -/
def allLF : List Char → List Char
  | [] => []
  | [c] => [if c = cr then lf else c]
  | c :: d :: rest =>
    if c = cr then
      if d = lf then lf :: allLF rest else lf :: allLF (d :: rest)
    else c :: allLF (d :: rest)

/-- The lines `findIncludePaths` loops over: the pieces of the LF-normalised content. -/
def linesOf (data : String) : List String :=
  (splitLF (formatLF data).data).map String.mk

/-- The line `findIncludePaths` builds for the text `str` at the 0-based index `k`: `newLine`
is given the 1-based number `k + 1`. -/
def lineAt {R T : Type} (c : Code R T) (opts : Options) (f : File) (k : Nat) (str : String) :
    Line :=
  c.newLine (k + 1) str opts f

/-- The line is an include directive. -/
def isIncludeLine {R T : Type} (c : Code R T) (ln : Line) : Bool :=
  c.isHelperMethodOf ln c.helperMethodNameInclude

/-- The line is an include directive with fewer than three tokens. -/
def shortInclude {R T : Type} (c : Code R T) (ln : Line) : Bool :=
  isIncludeLine c ln && decide (ln.tokens.length < 3)

/-- The third tokens of the include directives among `lines`, numbered from `i`, in line
order, as the specification words the result of `findIncludePaths`. It is compared with
`findIncludePathsLoop`. -/
def thirdTokens {R T : Type} (c : Code R T) (opts : Options) (f : File) (i : Nat)
    (lines : List String) : List String :=
  ((((lines.enumFrom i).map (fun x => lineAt c opts f x.1 x.2)).filter
    (fun ln => isIncludeLine c ln)).map (fun ln => ln.tokens.getD 2 ""))

/-- An asset hook that knows `x.ace` in `D2` only. -/
def sampleAsset (name : String) : Except Err String :=
  if name = "D2/x.ace" then Except.ok "asset two" else Except.error "no such asset"

/-- Options with the base directories `D1`, `D2` and the asset hook `sampleAsset`. -/
def assetOptions : Options := ⟨["D1", "D2"], "ace", some sampleAsset, false, false, false⟩

/-- The include graph, nodes: the file a path resolves to, if `readFile` can read it. -/
def resolveFile {R T : Type} (c : Code R T) (fs : String → Except Err String) (opts : Options)
    (p : String) : Option File :=
  match (readFile c fs p opts).1 with
  | Except.ok f => some f
  | Except.error _ => none

/-- The include graph, edges: the include paths a file declares, in declaration order, if
its directives are well formed. -/
def declaredPaths {R T : Type} (c : Code R T) (opts : Options) (f : File) :
    Option (List String) :=
  match findIncludePaths c f.data opts f with
  | Except.ok ps => some ps
  | Except.error _ => none

/-- The reference traversal, as the specification words it, over sibling paths taken in
declaration order: a path in the visited set is skipped; any other path is marked visited,
its file is appended to the order, and all of its nested includes are visited (`visit`)
before the next sibling is considered. -/
def refSiblings (visit : List String → List File → File → Option (List String × List File))
    (resolve : String → Option File) :
    List String → List String → List File → Option (List String × List File)
  | [], visited, order => some (visited, order)
  | p :: rest, visited, order =>
    if p ∈ visited then refSiblings visit resolve rest visited order
    else
      match resolve p with
      | none => none
      | some f =>
        match visit (p :: visited) (order ++ [f]) f with
        | none => none
        | some (visited2, order2) => refSiblings visit resolve rest visited2 order2

/-- The reference depth-first preorder with a visited set keyed by path, on a graph given by
`resolve` and `declared`, from the includes a file declares; `none` when a path does not
resolve, a file is malformed, or the depth bound is reached. It is compared with
`findIncludes`. -/
def refPreorder (resolve : String → Option File) (declared : File → Option (List String)) :
    Nat → List String → List File → File → Option (List String × List File)
  | 0, _, _, _ => none
  | depth + 1, visited, order, f =>
    match declared f with
    | none => none
    | some ps =>
      refSiblings (fun v o g => refPreorder resolve declared depth v o g) resolve ps visited order

/-- The list a traversal of the code produced, when it succeeded. -/
def foundList : Found → Option (List File)
  | some (Except.ok includes, _) => some includes
  | _ => none

/-- A filesystem where `a` includes `b` and `c`, and `b` includes `d`. -/
def treeFs (name : String) : Except Err String :=
  if name = "a.ace" then Except.ok "include = b\ninclude = c"
  else if name = "b.ace" then Except.ok "include = d"
  else if name = "c.ace" then Except.ok "c"
  else if name = "d.ace" then Except.ok "d"
  else Except.error "no such file"

/-! ## Basic facts -/

theorem hasFile_iff (l : List File) (p : String) : hasFile l p = true ↔ p ∈ paths l := by
  induction l with
  | nil => simp [hasFile, paths]
  | cons f rest ih =>
    unfold hasFile
    by_cases h : f.path = p
    · simp [h, paths]
    · have h2 : ¬ p = f.path := fun e => h e.symm
      simp [h, h2, ih, paths]

theorem hasFile_false_iff (l : List File) (p : String) : hasFile l p = false ↔ p ∉ paths l := by
  rw [← hasFile_iff]; cases hasFile l p <;> simp

theorem paths_append (a b : List File) : paths (a ++ b) = paths a ++ paths b := by
  simp [paths]

theorem readPaths_append (a b : List Event) : readPaths (a ++ b) = readPaths a ++ readPaths b := by
  induction a with
  | nil => rfl
  | cons e a ih => cases e <;> simp [readPaths, ih]

theorem scanPaths_append (a b : List Event) : scanPaths (a ++ b) = scanPaths a ++ scanPaths b := by
  induction a with
  | nil => rfl
  | cons e a ih => cases e <;> simp [scanPaths, ih]

theorem readCandidate_log (fs : String → Except Err String) (opts : Options) (name : String) :
    readPaths (readCandidate fs opts name).2 = [] ∧ scanPaths (readCandidate fs opts name).2 = [] := by
  unfold readCandidate
  cases opts.Asset <;> simp [readPaths, scanPaths]

theorem readFileLoop_log {R T : Type} (c : Code R T) (fs : String → Except Err String)
    (path : String) (opts : Options) (v : String) (rest : List String) :
    readPaths (readFileLoop c fs path opts v rest).2 = [] ∧
    scanPaths (readFileLoop c fs path opts v rest).2 = [] ∧
    ∀ f, (readFileLoop c fs path opts v rest).1 = Except.ok f → f.path = path := by
  induction rest generalizing v with
  | nil =>
    unfold readFileLoop
    have h := readCandidate_log fs opts (c.Join v (path ++ dot ++ opts.Extension))
    rcases hc : readCandidate fs opts (c.Join v (path ++ dot ++ opts.Extension)) with ⟨r, l⟩
    rw [hc] at h
    cases r with
    | error e => simpa using h
    | ok d =>
      refine ⟨h.1, h.2, ?_⟩
      intro f hf
      simp at hf
      rw [← hf]; rfl
  | cons v2 rest ih =>
    unfold readFileLoop
    have h := readCandidate_log fs opts (c.Join v (path ++ dot ++ opts.Extension))
    rcases hc : readCandidate fs opts (c.Join v (path ++ dot ++ opts.Extension)) with ⟨r, l⟩
    rw [hc] at h
    cases r with
    | error e =>
      have h2 := ih v2
      simp only [readPaths_append, scanPaths_append]
      simp at h
      simp [h.1, h.2, h2.1, h2.2.1]
      exact h2.2.2
    | ok d =>
      refine ⟨h.1, h.2, ?_⟩
      intro f hf
      simp at hf
      rw [← hf]; rfl

/-- What `readFile` logs and returns: one call, no scan, and a file with the logical path. -/
theorem readFile_log {R T : Type} (c : Code R T) (fs : String → Except Err String)
    (path : String) (opts : Options) :
    readPaths (readFile c fs path opts).2 = [path] ∧
    scanPaths (readFile c fs path opts).2 = [] ∧
    ∀ f, (readFile c fs path opts).1 = Except.ok f → f.path = path := by
  unfold readFile
  split
  · have key : ∀ X : Except Err File × List Event,
        (readPaths X.2 = [] ∧ scanPaths X.2 = [] ∧
          ∀ f : File, X.1 = Except.ok f → f.path = path) →
        readPaths (match X with | (r, l) => (r, Event.readFile path :: l)).2 = [path] ∧
        scanPaths (match X with | (r, l) => (r, Event.readFile path :: l)).2 = [] ∧
        ∀ f : File, (match X with | (r, l) => (r, Event.readFile path :: l)).1 = Except.ok f →
          f.path = path := by
      rintro ⟨r, l⟩ ⟨h1, h2, h3⟩
      refine ⟨?_, ?_, h3⟩
      · show path :: readPaths l = [path]
        rw [show readPaths l = [] from h1]
      · exact h2
    cases opts.BaseDirs with
    | nil => exact key _ (readFileLoop_log c fs path opts "" [])
    | cons v rest => exact key _ (readFileLoop_log c fs path opts v rest)
  · refine ⟨rfl, rfl, ?_⟩
    intro f hf
    simp at hf
    rw [← hf]; rfl

/-! ## The shape of an include traversal -/

theorem findIncludesLoop_inv (descend : String → List File → File → Found)
    (read : String → Except Err File × List Event)
    (hd : ∀ d i t r l, descend d i t = some (r, l) → ScanInv i t r l)
    (hr : ∀ p, readPaths (read p).2 = [p] ∧ scanPaths (read p).2 = [] ∧
      ∀ f : File, (read p).1 = Except.ok f → f.path = p)
    (ps : List String) (includes : List File) (r : Except Err (List File)) (l : List Event)
    (h : findIncludesLoop descend read ps includes = some (r, l)) : WalkInv includes r l := by
  induction ps generalizing includes r l with
  | nil =>
    simp only [findIncludesLoop, Option.some.injEq, Prod.mk.injEq] at h
    obtain ⟨h1, h2⟩ := h
    subst h1 h2
    refine ⟨by simp [readPaths], by simp [readPaths], by simp [readPaths, scanPaths], ?_⟩
    intro i2 hi
    refine ⟨[], ?_, rfl, rfl⟩
    simp at hi
    simp [hi]
  | cons p ps ih =>
    unfold findIncludesLoop at h
    by_cases hp : hasFile includes p = true
    · rw [if_pos hp] at h
      exact ih includes r l h
    · rw [if_neg hp] at h
      have hp2 : p ∉ paths includes := by
        rw [← hasFile_iff]; exact hp
      obtain ⟨hr1, hr2, hr3⟩ := hr p
      rcases hrd : read p with ⟨rf, l1⟩
      rw [hrd] at h hr1 hr2 hr3
      simp only at hr1 hr2 hr3
      cases rf with
      | error e =>
        simp only [Option.some.injEq, Prod.mk.injEq] at h
        obtain ⟨h1, h2⟩ := h
        subst h1 h2
        refine ⟨by simp [hr1], by simp [hr1, hp2], by simp [hr1, hr2], ?_⟩
        intro i2 hi
        cases hi
      | ok f =>
        have hfp : f.path = p := hr3 f rfl
        simp only at h
        rcases hdd : descend f.data (includes ++ [f]) f with _ | ⟨r2, l2⟩
        · rw [hdd] at h; cases h
        · rw [hdd] at h
          obtain ⟨l2b, hl2, hA, hB, hC, hD⟩ := hd _ _ _ _ _ hdd
          have hpf : p ∈ paths [f] := by simp [paths, hfp]
          have hB2 : ∀ q ∈ readPaths l2b, q ≠ p ∧ q ∉ paths includes := by
            intro q hq
            have hq2 := hB q hq
            simp only [paths_append, List.mem_append, not_or] at hq2
            exact ⟨fun e => hq2.2 (e ▸ hpf), hq2.1⟩
          cases r2 with
          | error e =>
            simp only [Option.some.injEq, Prod.mk.injEq] at h
            obtain ⟨h1, h2⟩ := h
            subst h1 h2
            subst hl2
            have e1 : readPaths (l1 ++ Event.findIncludes f.path :: l2b) = p :: readPaths l2b := by
              rw [readPaths_append, hr1]; rfl
            have e2 : scanPaths (l1 ++ Event.findIncludes f.path :: l2b) = p :: scanPaths l2b := by
              rw [scanPaths_append, hr2, hfp]; rfl
            rw [WalkInv, e1, e2]
            refine ⟨?_, ?_, ?_, ?_⟩
            · exact List.nodup_cons.mpr ⟨fun hq => (hB2 p hq).1 rfl, hA⟩
            · intro q hq
              rcases List.mem_cons.mp hq with rfl | hq
              · exact hp2
              · exact (hB2 q hq).2
            · exact hC.cons₂ p
            · intro i2 hi
              cases hi
          | ok inc2 =>
            simp only at h
            obtain ⟨new2, hn1, hn2, hn3⟩ := hD inc2 rfl
            rcases hll : findIncludesLoop descend read ps inc2 with _ | ⟨r3, l3⟩
            · rw [hll] at h; cases h
            · rw [hll] at h
              simp only [Option.some.injEq, Prod.mk.injEq] at h
              obtain ⟨h1, h2⟩ := h
              subst h1 h2
              subst hl2
              obtain ⟨hA3, hB3, hC3, hD3⟩ := ih inc2 r3 l3 hll
              have hB4 : ∀ q ∈ readPaths l3,
                  q ≠ p ∧ q ∉ paths includes ∧ q ∉ readPaths l2b := by
                intro q hq
                have hq2 := hB3 q hq
                rw [hn1] at hq2
                simp only [paths_append, List.mem_append, not_or] at hq2
                exact ⟨fun e => hq2.1.2 (e ▸ hpf), hq2.1.1, hn2 ▸ hq2.2⟩
              have e1 : readPaths (l1 ++ Event.findIncludes f.path :: l2b ++ l3) =
                  p :: (readPaths l2b ++ readPaths l3) := by
                rw [readPaths_append, readPaths_append, hr1]; rfl
              have e2 : scanPaths (l1 ++ Event.findIncludes f.path :: l2b ++ l3) =
                  p :: (scanPaths l2b ++ scanPaths l3) := by
                rw [scanPaths_append, scanPaths_append, hr2, hfp]; rfl
              rw [WalkInv, e1, e2]
              refine ⟨?_, ?_, ?_, ?_⟩
              · refine List.nodup_cons.mpr ⟨?_, ?_⟩
                · intro hq
                  rcases List.mem_append.mp hq with hq | hq
                  · exact (hB2 p hq).1 rfl
                  · exact (hB4 p hq).1 rfl
                · refine List.nodup_append.mpr ⟨hA, hA3, ?_⟩
                  intro q hq1 hq2
                  exact (hB4 q hq2).2.2 hq1
              · intro q hq
                rcases List.mem_cons.mp hq with rfl | hq
                · exact hp2
                · rcases List.mem_append.mp hq with hq | hq
                  · exact (hB2 q hq).2
                  · exact (hB4 q hq).2.1
              · exact (List.Sublist.append hC hC3).cons₂ p
              · intro i2 hi
                obtain ⟨new3, hm1, hm2, hm3⟩ := hD3 i2 hi
                refine ⟨f :: new2 ++ new3, ?_, ?_, ?_⟩
                · rw [hm1, hn1]; simp
                · rw [← hn2, ← hm2]
                  simp [paths, hfp]
                · rw [hn3, hm3]

theorem findIncludes_inv {R T : Type} (c : Code R T) (fs : String → Except Err String)
    (opts : Options) (fuel : Nat) (data : String) (includes : List File) (targetFile : File)
    (r : Except Err (List File)) (l : List Event)
    (h : findIncludes c fs opts fuel data includes targetFile = some (r, l)) :
    ScanInv includes targetFile r l := by
  induction fuel generalizing data includes targetFile r l with
  | zero => simp [findIncludes] at h
  | succ n ih =>
    unfold findIncludes at h
    cases hps : findIncludePaths c data opts targetFile with
    | error e =>
      rw [hps] at h
      simp only [Option.some.injEq, Prod.mk.injEq] at h
      obtain ⟨h1, h2⟩ := h
      subst h1 h2
      refine ⟨[], rfl, by simp [readPaths], by simp [readPaths],
        by simp [readPaths, scanPaths], ?_⟩
      intro i2 hi
      cases hi
    | ok ps =>
      rw [hps] at h
      simp only at h
      rcases hll : findIncludesLoop (fun d i t => findIncludes c fs opts n d i t)
          (fun p => readFile c fs p opts) ps includes with _ | ⟨r3, l3⟩
      · rw [hll] at h; cases h
      · rw [hll] at h
        simp only [Option.some.injEq, Prod.mk.injEq] at h
        obtain ⟨h1, h2⟩ := h
        subst h1 h2
        refine ⟨l3, rfl, ?_⟩
        exact findIncludesLoop_inv _ _ (fun d i t r l hh => ih d i t r l hh)
          (fun p => readFile_log c fs p opts) ps includes _ _ hll

/-- A successful `findIncludes` keeps the paths of `includes` pairwise distinct. -/
theorem findIncludes_nodup {R T : Type} (c : Code R T) (fs : String → Except Err String)
    (opts : Options) (fuel : Nat) (data : String) (includes : List File) (targetFile : File)
    (includes2 : List File) (l : List Event) (hn : (paths includes).Nodup)
    (h : findIncludes c fs opts fuel data includes targetFile = some (Except.ok includes2, l)) :
    (paths includes2).Nodup := by
  obtain ⟨l2, _, hA, hB, _, hD⟩ := findIncludes_inv c fs opts fuel data includes targetFile _ _ h
  obtain ⟨new, h1, h2, _⟩ := hD includes2 rfl
  rw [h1, paths_append, h2]
  exact List.nodup_append.mpr ⟨hn, hA, fun q hq1 hq2 => hB q hq2 hq1⟩

/-- The source `readFilesMiss` assembles, with the two traversals it comes from. -/
theorem readFilesMiss_ok {R T : Type} (c : Code R T) (fs : String → Except Err String)
    (fuel : Nat) (basePath innerPath : String) (opts : Options) (w w2 : World T)
    (src : source) (l : List Event)
    (h : readFilesMiss c fs fuel basePath innerPath opts w = some (Except.ok src, w2, l)) :
    ∃ l1 l2 l3 l4 includes1,
      readFile c fs basePath opts = (Except.ok src.base, l1) ∧
      readFile c fs innerPath opts = (Except.ok src.inner, l2) ∧
      findIncludes c fs opts fuel src.base.data [] src.base = some (Except.ok includes1, l3) ∧
      findIncludes c fs opts fuel src.inner.data includes1 src.inner =
        some (Except.ok src.includes, l4) ∧
      l = l1 ++ l2 ++ l3 ++ l4 ∧
      w2 = (if !opts.SourceCache then setSourceCache w (basePath ++ colon ++ innerPath) src
        else w) := by
  unfold readFilesMiss at h
  rcases hb : readFile c fs basePath opts with ⟨rb, l1⟩
  rw [hb] at h
  cases rb with
  | error e => simp at h
  | ok base =>
    rcases hi : readFile c fs innerPath opts with ⟨ri, l2⟩
    rw [hi] at h
    cases ri with
    | error e => simp at h
    | ok inner =>
      simp only at h
      rcases h3 : findIncludes c fs opts fuel base.data [] base with _ | ⟨r3, l3⟩
      · rw [h3] at h; cases h
      · rw [h3] at h
        cases r3 with
        | error e => simp at h
        | ok includes1 =>
          simp only at h
          rcases h4 : findIncludes c fs opts fuel inner.data includes1 inner with _ | ⟨r4, l4⟩
          · rw [h4] at h; cases h
          · rw [h4] at h
            cases r4 with
            | error e => simp at h
            | ok includes =>
              simp only at h
              by_cases hs : (!opts.SourceCache) = true
              · rw [if_pos hs] at h
                simp only [Option.some.injEq, Prod.mk.injEq, Except.ok.injEq] at h
                obtain ⟨e1, e2, e3⟩ := h
                subst e1 e2 e3
                exact ⟨l1, l2, l3, l4, includes1, rfl, rfl, h3, h4, rfl, by rw [if_pos hs]⟩
              · rw [if_neg hs] at h
                simp only [Option.some.injEq, Prod.mk.injEq, Except.ok.injEq] at h
                obtain ⟨e1, e2, e3⟩ := h
                subst e1 e2 e3
                exact ⟨l1, l2, l3, l4, includes1, rfl, rfl, h3, h4, rfl, by rw [if_neg hs]⟩

/-- The two ways `readFiles` succeeds: the cached source, with the caches untouched, or the
source `readFilesMiss` assembles. -/
theorem readFiles_ok {R T : Type} (c : Code R T) (fs : String → Except Err String)
    (fuel : Nat) (basePath innerPath : String) (opts : Options) (w w2 : World T)
    (src : source) (l : List Event)
    (h : readFiles c fs fuel basePath innerPath opts w = some (Except.ok src, w2, l)) :
    (getSourceCache w (basePath ++ colon ++ innerPath) = some src ∧ w2 = w ∧ l = []) ∨
    readFilesMiss c fs fuel basePath innerPath opts w = some (Except.ok src, w2, l) := by
  unfold readFiles at h
  simp only at h
  split at h
  · split at h
    · rename_i s hs
      simp only [Option.some.injEq, Prod.mk.injEq, Except.ok.injEq] at h
      obtain ⟨e1, e2, e3⟩ := h
      subst e1 e2 e3
      exact Or.inl ⟨hs, rfl, rfl⟩
    · exact Or.inr h
  · exact Or.inr h

/-- Distinct include paths are an invariant of the source cache: if every cached source has
them before a successful `readFiles`, the returned source and every cached source after the
call have them. -/
theorem readFiles_unique_inv {R T : Type} (c : Code R T)
    (fs : String → Except Err String) (fuel : Nat) (basePath innerPath : String)
    (opts : Options) (w w2 : World T) (src : source) (l : List Event)
    (hw : ∀ k s, getSourceCache w k = some s → (paths s.includes).Nodup)
    (h : readFiles c fs fuel basePath innerPath opts w = some (Except.ok src, w2, l)) :
    (paths src.includes).Nodup ∧
    ∀ k s, getSourceCache w2 k = some s → (paths s.includes).Nodup := by
  rcases readFiles_ok c fs fuel basePath innerPath opts w w2 src l h with ⟨h1, h2, _⟩ | hm
  · subst h2
    exact ⟨hw _ _ h1, hw⟩
  · obtain ⟨l1, l2, l3, l4, includes1, _, _, h3, h4, _, hw2⟩ :=
      readFilesMiss_ok c fs fuel basePath innerPath opts w w2 src l hm
    have n1 : (paths includes1).Nodup :=
      findIncludes_nodup c fs opts fuel _ [] _ _ _ (by simp [paths]) h3
    have n2 : (paths src.includes).Nodup :=
      findIncludes_nodup c fs opts fuel _ includes1 _ _ _ n1 h4
    refine ⟨n2, ?_⟩
    intro k s hk
    rw [hw2] at hk
    by_cases hs : (!opts.SourceCache) = true
    · rw [if_pos hs] at hk
      simp only [getSourceCache, setSourceCache] at hk
      by_cases hkn : k = basePath ++ colon ++ innerPath
      · rw [if_pos hkn] at hk
        simp only [Option.some.injEq] at hk
        rw [← hk]; exact n2
      · rw [if_neg hkn] at hk
        exact hw k s hk
    · rw [if_neg hs] at hk
      exact hw k s hk

/-! ## Termination -/

theorem remaining_le_length (P : List String) (includes : List File) :
    remaining P includes ≤ P.length := by
  unfold remaining
  exact le_trans (Finset.card_filter_le _ _) (List.toFinset_card_le P)

theorem remaining_append_le (P : List String) (includes new : List File) :
    remaining P (includes ++ new) ≤ remaining P includes := by
  unfold remaining
  apply Finset.card_le_card
  intro q hq
  simp only [Finset.mem_filter, paths_append, List.mem_append, not_or] at hq ⊢
  exact ⟨hq.1, hq.2.1⟩

theorem remaining_append_lt (P : List String) (includes : List File) (f : File)
    (hP : f.path ∈ P) (hf : f.path ∉ paths includes) :
    remaining P (includes ++ [f]) < remaining P includes := by
  unfold remaining
  apply Finset.card_lt_card
  rw [Finset.ssubset_iff_of_subset]
  · refine ⟨f.path, ?_, ?_⟩
    · simp only [Finset.mem_filter, List.mem_toFinset]
      exact ⟨hP, hf⟩
    · simp [paths]
  · intro q hq
    simp only [Finset.mem_filter, paths_append, List.mem_append, not_or] at hq ⊢
    exact ⟨hq.1, hq.2.1⟩

theorem findIncludesLoop_returns {R T : Type} (c : Code R T)
    (fs : String → Except Err String) (opts : Options) (P : List String)
    (hP : ∀ p f l, readFile c fs p opts = (Except.ok f, l) → p ∈ P) (n : Nat)
    (ih : ∀ data includes targetFile, remaining P includes < n →
      ∃ out, findIncludes c fs opts n data includes targetFile = some out)
    (ps : List String) (includes : List File) (hrem : remaining P includes ≤ n) :
    ∃ out, findIncludesLoop (fun d i t => findIncludes c fs opts n d i t)
      (fun p => readFile c fs p opts) ps includes = some out := by
  induction ps generalizing includes with
  | nil => exact ⟨_, rfl⟩
  | cons p ps ihp =>
    unfold findIncludesLoop
    by_cases hp : hasFile includes p = true
    · rw [if_pos hp]
      exact ihp includes hrem
    · rw [if_neg hp]
      have hp2 : p ∉ paths includes := by
        rw [← hasFile_iff]; exact hp
      rcases hrd : readFile c fs p opts with ⟨rf, l1⟩
      cases rf with
      | error e => exact ⟨_, rfl⟩
      | ok f =>
        have hfp : f.path = p := by
          have := (readFile_log c fs p opts).2.2 f
          rw [hrd] at this
          exact this rfl
        have hlt : remaining P (includes ++ [f]) < remaining P includes :=
          remaining_append_lt P includes f (hfp ▸ hP p f l1 hrd) (hfp ▸ hp2)
        obtain ⟨out2, ho2⟩ := ih f.data (includes ++ [f]) f (lt_of_lt_of_le hlt hrem)
        simp only
        rw [ho2]
        rcases out2 with ⟨r2, l2⟩
        cases r2 with
        | error e => exact ⟨_, rfl⟩
        | ok inc2 =>
          obtain ⟨l2b, _, _, _, _, hD⟩ := findIncludes_inv c fs opts n _ _ _ _ _ ho2
          obtain ⟨new, hn, _, _⟩ := hD inc2 rfl
          have hle : remaining P inc2 ≤ n := by
            rw [hn, List.append_assoc]
            exact le_trans (remaining_append_le P includes _) hrem
          obtain ⟨out3, ho3⟩ := ihp inc2 hle
          simp only
          rw [ho3]
          rcases out3 with ⟨r3, l3⟩
          exact ⟨_, rfl⟩

/-- With more fuel than there are unread resolvable paths, `findIncludes` returns. -/
theorem findIncludes_returns_of_remaining {R T : Type} (c : Code R T)
    (fs : String → Except Err String) (opts : Options) (P : List String)
    (hP : ∀ p f l, readFile c fs p opts = (Except.ok f, l) → p ∈ P) (fuel : Nat)
    (data : String) (includes : List File) (targetFile : File)
    (hrem : remaining P includes < fuel) :
    ∃ out, findIncludes c fs opts fuel data includes targetFile = some out := by
  induction fuel generalizing data includes targetFile with
  | zero => exact absurd hrem (Nat.not_lt_zero _)
  | succ n ih =>
    unfold findIncludes
    cases findIncludePaths c data opts targetFile with
    | error e => exact ⟨_, rfl⟩
    | ok ps =>
      obtain ⟨out, ho⟩ := findIncludesLoop_returns c fs opts P hP n
        (fun d i t h => ih d i t h) ps includes (Nat.lt_succ_iff.mp hrem)
      simp only
      rw [ho]
      rcases out with ⟨r, l⟩
      exact ⟨_, rfl⟩

theorem findIncludesLoop_mono (d1 d2 : String → List File → File → Found)
    (read : String → Except Err File × List Event)
    (hd : ∀ d i t out, d1 d i t = some out → d2 d i t = some out)
    (ps : List String) (includes : List File) (out : Except Err (List File) × List Event)
    (h : findIncludesLoop d1 read ps includes = some out) :
    findIncludesLoop d2 read ps includes = some out := by
  induction ps generalizing includes out with
  | nil => exact h
  | cons p ps ih =>
    unfold findIncludesLoop at h ⊢
    by_cases hp : hasFile includes p = true
    · rw [if_pos hp] at h ⊢
      exact ih includes out h
    · rw [if_neg hp] at h ⊢
      rcases hrd : read p with ⟨rf, l1⟩
      rw [hrd] at h
      cases rf with
      | error e => exact h
      | ok f =>
        simp only at h ⊢
        rcases hdd : d1 f.data (includes ++ [f]) f with _ | ⟨r2, l2⟩
        · rw [hdd] at h; cases h
        · rw [hdd] at h
          rw [hd _ _ _ _ hdd]
          cases r2 with
          | error e => exact h
          | ok inc2 =>
            simp only at h ⊢
            rcases hll : findIncludesLoop d1 read ps inc2 with _ | ⟨r3, l3⟩
            · rw [hll] at h; cases h
            · rw [hll] at h
              rw [ih inc2 _ hll]
              exact h

/-- More fuel does not change a result of `findIncludes`. -/
theorem findIncludes_mono {R T : Type} (c : Code R T) (fs : String → Except Err String)
    (opts : Options) (n m : Nat) (hnm : n ≤ m) (data : String) (includes : List File)
    (targetFile : File) (out : Except Err (List File) × List Event)
    (h : findIncludes c fs opts n data includes targetFile = some out) :
    findIncludes c fs opts m data includes targetFile = some out := by
  induction n generalizing m data includes targetFile out with
  | zero => simp [findIncludes] at h
  | succ n ih =>
    cases m with
    | zero => exact absurd hnm (Nat.not_succ_le_zero n)
    | succ m =>
      unfold findIncludes at h ⊢
      cases hps : findIncludePaths c data opts targetFile with
      | error e => rw [hps] at h; exact h
      | ok ps =>
        rw [hps] at h
        simp only at h ⊢
        rcases hll : findIncludesLoop (fun d i t => findIncludes c fs opts n d i t)
            (fun p => readFile c fs p opts) ps includes with _ | ⟨r3, l3⟩
        · rw [hll] at h; cases h
        · rw [hll] at h
          rw [findIncludesLoop_mono _ (fun d i t => findIncludes c fs opts m d i t) _
            (fun d i t o ho => ih m (Nat.le_of_succ_le_succ hnm) d i t o ho) ps includes _ hll]
          exact h

theorem findIncludesLoop_scans (descend : String → List File → File → Found)
    (read : String → Except Err File × List Event) (Q : String → Prop)
    (hd : ∀ d i t r l, descend d i t = some (r, l) →
      ∃ l2, l = Event.findIncludes t.path :: l2 ∧ ∀ p ∈ scanPaths l2, Q p)
    (hr : ∀ p, scanPaths (read p).2 = [] ∧
      ∀ f : File, (read p).1 = Except.ok f → f.path = p ∧ Q p)
    (ps : List String) (includes : List File) (r : Except Err (List File)) (l : List Event)
    (h : findIncludesLoop descend read ps includes = some (r, l)) :
    ∀ p ∈ scanPaths l, Q p := by
  induction ps generalizing includes r l with
  | nil =>
    simp only [findIncludesLoop, Option.some.injEq, Prod.mk.injEq] at h
    rw [← h.2]
    intro p hp
    cases hp
  | cons q ps ih =>
    unfold findIncludesLoop at h
    by_cases hq : hasFile includes q = true
    · rw [if_pos hq] at h
      exact ih includes r l h
    · rw [if_neg hq] at h
      obtain ⟨hr1, hr2⟩ := hr q
      rcases hrd : read q with ⟨rf, l1⟩
      rw [hrd] at h hr1 hr2
      simp only at hr1 hr2
      cases rf with
      | error e =>
        simp only [Option.some.injEq, Prod.mk.injEq] at h
        rw [← h.2, hr1]
        intro p hp
        cases hp
      | ok f =>
        obtain ⟨hfp, hQ⟩ := hr2 f rfl
        simp only at h
        rcases hdd : descend f.data (includes ++ [f]) f with _ | ⟨r2, l2⟩
        · rw [hdd] at h; cases h
        · rw [hdd] at h
          obtain ⟨l2b, hl2, hS⟩ := hd _ _ _ _ _ hdd
          have e2 : scanPaths (l1 ++ l2) = q :: scanPaths l2b := by
            rw [scanPaths_append, hr1, hl2, hfp]; rfl
          cases r2 with
          | error e =>
            simp only [Option.some.injEq, Prod.mk.injEq] at h
            rw [← h.2, e2]
            intro p hp
            rcases List.mem_cons.mp hp with rfl | hp
            · exact hQ
            · exact hS p hp
          | ok inc2 =>
            simp only at h
            rcases hll : findIncludesLoop descend read ps inc2 with _ | ⟨r3, l3⟩
            · rw [hll] at h; cases h
            · rw [hll] at h
              simp only [Option.some.injEq, Prod.mk.injEq] at h
              rw [← h.2, scanPaths_append, e2]
              intro p hp
              rcases List.mem_append.mp hp with hp | hp
              · rcases List.mem_cons.mp hp with rfl | hp
                · exact hQ
                · exact hS p hp
              · exact ih inc2 r3 l3 hll p hp

/-- Every file `findIncludes` descends into was resolved by `readFile`. -/
theorem findIncludes_scans {R T : Type} (c : Code R T) (fs : String → Except Err String)
    (opts : Options) (Q : String → Prop)
    (hQ : ∀ p f l, readFile c fs p opts = (Except.ok f, l) → Q p)
    (fuel : Nat) (data : String) (includes : List File) (targetFile : File)
    (r : Except Err (List File)) (l : List Event)
    (h : findIncludes c fs opts fuel data includes targetFile = some (r, l)) :
    ∃ l2, l = Event.findIncludes targetFile.path :: l2 ∧ ∀ p ∈ scanPaths l2, Q p := by
  induction fuel generalizing data includes targetFile r l with
  | zero => simp [findIncludes] at h
  | succ n ih =>
    unfold findIncludes at h
    cases hps : findIncludePaths c data opts targetFile with
    | error e =>
      rw [hps] at h
      simp only [Option.some.injEq, Prod.mk.injEq] at h
      refine ⟨[], h.2.symm, ?_⟩
      intro p hp
      cases hp
    | ok ps =>
      rw [hps] at h
      simp only at h
      rcases hll : findIncludesLoop (fun d i t => findIncludes c fs opts n d i t)
          (fun p => readFile c fs p opts) ps includes with _ | ⟨r3, l3⟩
      · rw [hll] at h; cases h
      · rw [hll] at h
        simp only [Option.some.injEq, Prod.mk.injEq] at h
        refine ⟨l3, h.2.symm, ?_⟩
        refine findIncludesLoop_scans _ _ Q (fun d i t r l hh => ih d i t r l hh) ?_
          ps includes r3 l3 hll
        intro p
        refine ⟨(readFile_log c fs p opts).2.1, ?_⟩
        intro f hf
        refine ⟨(readFile_log c fs p opts).2.2 f hf, ?_⟩
        rcases hrd : readFile c fs p opts with ⟨rf, lf⟩
        rw [hrd] at hf
        simp only at hf
        subst hf
        exact hQ p f lf hrd

theorem readFilesMiss_returns {R T : Type} (c : Code R T) (fs : String → Except Err String)
    (fuel : Nat) (basePath innerPath : String) (opts : Options) (w : World T)
    (hf : ∀ data includes targetFile,
      ∃ out, findIncludes c fs opts fuel data includes targetFile = some out) :
    ∃ out, readFilesMiss c fs fuel basePath innerPath opts w = some out := by
  unfold readFilesMiss
  rcases readFile c fs basePath opts with ⟨rb, l1⟩
  cases rb with
  | error e => exact ⟨_, rfl⟩
  | ok base =>
    rcases readFile c fs innerPath opts with ⟨ri, l2⟩
    cases ri with
    | error e => exact ⟨_, rfl⟩
    | ok inner =>
      obtain ⟨⟨r3, l3⟩, h3⟩ := hf base.data [] base
      simp only
      rw [h3]
      cases r3 with
      | error e => exact ⟨_, rfl⟩
      | ok includes1 =>
        obtain ⟨⟨r4, l4⟩, h4⟩ := hf inner.data includes1 inner
        simp only
        rw [h4]
        cases r4 with
        | error e => exact ⟨_, rfl⟩
        | ok includes =>
          simp only
          split <;> exact ⟨_, rfl⟩

theorem readFiles_returns {R T : Type} (c : Code R T) (fs : String → Except Err String)
    (fuel : Nat) (basePath innerPath : String) (opts : Options) (w : World T)
    (hf : ∀ data includes targetFile,
      ∃ out, findIncludes c fs opts fuel data includes targetFile = some out) :
    ∃ out, readFiles c fs fuel basePath innerPath opts w = some out := by
  unfold readFiles
  simp only
  split
  · split
    · exact ⟨_, rfl⟩
    · exact readFilesMiss_returns c fs fuel basePath innerPath opts w hf
  · exact readFilesMiss_returns c fs fuel basePath innerPath opts w hf

/-- Two depth bounds under which `findIncludes` agrees everywhere give the same `readFiles`. -/
theorem readFiles_congr_fuel {R T : Type} (c : Code R T) (fs : String → Except Err String)
    (n m : Nat) (basePath innerPath : String) (opts : Options) (w : World T)
    (hf : ∀ data includes targetFile,
      findIncludes c fs opts n data includes targetFile =
        findIncludes c fs opts m data includes targetFile) :
    readFiles c fs n basePath innerPath opts w = readFiles c fs m basePath innerPath opts w := by
  unfold readFiles readFilesMiss
  simp only [hf]

/-- Claim C2. In a file store where every logical path that `readFile` resolves lies in a
finite list `P`, `findIncludes` terminates for every content, every accumulated list and
every target file, cyclic include graphs included: a depth bound above the length of `P`
is never reached, and every such bound gives the same result. Hence `readFiles` returns
too. The recursion descends only into files whose path was not in the list, so one call
scans at most one file per path of `P` besides its target. -/
theorem findIncludes_terminates {R T : Type} (c : Code R T) (fs : String → Except Err String)
    (opts : Options) (P : List String)
    (hP : ∀ p f l, readFile c fs p opts = (Except.ok f, l) → p ∈ P) :
    (∀ data includes targetFile, ∃ out, ∀ fuel, P.length < fuel →
      findIncludes c fs opts fuel data includes targetFile = some out) ∧
    (∀ basePath innerPath (w : World T), ∃ out, ∀ fuel, P.length < fuel →
      readFiles c fs fuel basePath innerPath opts w = some out) ∧
    (∀ fuel data includes targetFile r l,
      findIncludes c fs opts fuel data includes targetFile = some (r, l) →
      (scanPaths l).length ≤ P.length + 1) := by
  have h1 : ∀ data includes targetFile, ∃ out, ∀ fuel, P.length < fuel →
      findIncludes c fs opts fuel data includes targetFile = some out := by
    intro data includes targetFile
    obtain ⟨out, ho⟩ := findIncludes_returns_of_remaining c fs opts P hP (P.length + 1)
      data includes targetFile (Nat.lt_succ_of_le (remaining_le_length P includes))
    exact ⟨out, fun fuel hfuel => findIncludes_mono c fs opts _ fuel hfuel _ _ _ _ ho⟩
  refine ⟨h1, ?_, ?_⟩
  · intro basePath innerPath w
    obtain ⟨out, ho⟩ := readFiles_returns c fs (P.length + 1) basePath innerPath opts w
      (fun d i t => by
        obtain ⟨o, h⟩ := h1 d i t
        exact ⟨o, h _ (Nat.lt_succ_self _)⟩)
    refine ⟨out, ?_⟩
    intro fuel hfuel
    rw [← ho]
    apply readFiles_congr_fuel
    intro d i t
    obtain ⟨o, h⟩ := h1 d i t
    rw [h fuel hfuel, h _ (Nat.lt_succ_self _)]
  · intro fuel data includes targetFile r l h
    obtain ⟨l2, hl, hA, _, hC, _⟩ := findIncludes_inv c fs opts fuel data includes targetFile r l h
    obtain ⟨l3, hl3, hS⟩ := findIncludes_scans c fs opts (fun p => p ∈ P) hP fuel data includes
      targetFile r l h
    have e : l3 = l2 := by
      rw [hl] at hl3
      exact (List.cons.inj hl3).2.symm
    subst e
    rw [hl]
    have hn : (scanPaths l3).Nodup := hA.sublist hC
    have := (hn.subperm (fun p hp => hS p hp)).length_le
    simpa [scanPaths] using this

theorem string_append_right_cancel (a b s : String) (h : a ++ s = b ++ s) : a = b := by
  have h2 := congrArg String.data h
  simp only [String.data_append] at h2
  exact String.ext (List.append_cancel_right h2)

/-- The paths `readFile` resolves in the two-file cycle. -/
theorem cycleFs_resolvable (tc sc : Bool) (p : String) (f : File) (l : List Event)
    (h : readFile sampleCode cycleFs p (sampleOptions tc sc) = (Except.ok f, l)) :
    p ∈ ["", "a", "b"] := by
  by_cases hp : p.length > 0
  · simp only [readFile, if_pos hp, sampleOptions, readFileLoop, readCandidate, sampleCode,
      cycleFs] at h
    have ha : "a.ace" = "a" ++ dot ++ "ace" := by decide
    have hb : "b.ace" = "b" ++ dot ++ "ace" := by decide
    by_cases h1 : p ++ dot ++ "ace" = "a.ace"
    · rw [ha, String.append_assoc, String.append_assoc] at h1
      have := string_append_right_cancel _ _ _ h1
      simp [this]
    · by_cases h2 : p ++ dot ++ "ace" = "b.ace"
      · rw [hb, String.append_assoc, String.append_assoc] at h2
        have := string_append_right_cancel _ _ _ h2
        simp [this]
      · simp [h1, h2] at h
  · have h0 : p.length = 0 := Nat.eq_zero_of_not_pos hp
    have : p = "" := by
      apply String.ext
      exact List.length_eq_zero.mp h0
    simp [this]

/-- Claim C2 on the cycle `a` includes `b`, `b` includes `a`, where the resolvable paths are
the empty path, `a` and `b`: scanning `a` with a depth bound of 4 returns. -/
theorem findIncludes_terminates_witness :
    (findIncludes sampleCode cycleFs (sampleOptions false true) 4 "include = b" []
      ⟨"a", "include = b"⟩).isSome = true := by
  obtain ⟨out, h⟩ := (findIncludes_terminates sampleCode cycleFs (sampleOptions false true)
    ["", "a", "b"] (cycleFs_resolvable false true)).1 "include = b" [] ⟨"a", "include = b"⟩
  rw [h 4 (by decide)]
  rfl

/-! ## Closure under inclusion -/

theorem Declared.mono {R T : Type} {c : Code R T} {opts : Options} {f : File}
    {includes : List File} (h : Declared c opts f includes) (new : List File) :
    Declared c opts f (includes ++ new) := by
  obtain ⟨ps, h1, h2⟩ := h
  refine ⟨ps, h1, ?_⟩
  intro q hq
  rw [paths_append]
  exact List.mem_append_left _ (h2 q hq)

theorem findIncludesLoop_closed {R T : Type} (c : Code R T) (opts : Options)
    (descend : String → List File → File → Found)
    (read : String → Except Err File × List Event)
    (hd : ∀ f i i2 l, descend f.data i f = some (Except.ok i2, l) →
      ∃ new, i2 = i ++ new ∧ Declared c opts f i2 ∧ ∀ g ∈ new, Declared c opts g i2)
    (hr : ∀ p, ∀ f : File, (read p).1 = Except.ok f → f.path = p)
    (ps : List String) (includes includes2 : List File) (l : List Event)
    (h : findIncludesLoop descend read ps includes = some (Except.ok includes2, l)) :
    ∃ new, includes2 = includes ++ new ∧ (∀ p ∈ ps, p ∈ paths includes2) ∧
      ∀ g ∈ new, Declared c opts g includes2 := by
  induction ps generalizing includes includes2 l with
  | nil =>
    simp only [findIncludesLoop, Option.some.injEq, Prod.mk.injEq, Except.ok.injEq] at h
    refine ⟨[], by simp [h.1], by simp, by simp⟩
  | cons p ps ih =>
    unfold findIncludesLoop at h
    by_cases hp : hasFile includes p = true
    · rw [if_pos hp] at h
      obtain ⟨new, h1, h2, h3⟩ := ih includes includes2 l h
      refine ⟨new, h1, ?_, h3⟩
      intro q hq
      rcases List.mem_cons.mp hq with rfl | hq
      · rw [h1, paths_append]
        exact List.mem_append_left _ ((hasFile_iff includes q).mp hp)
      · exact h2 q hq
    · rw [if_neg hp] at h
      have hr3 := hr p
      rcases hrd : read p with ⟨rf, l1⟩
      rw [hrd] at h hr3
      cases rf with
      | error e => simp at h
      | ok f =>
        have hfp : f.path = p := hr3 f rfl
        simp only at h
        rcases hdd : descend f.data (includes ++ [f]) f with _ | ⟨r2, l2⟩
        · rw [hdd] at h; cases h
        · rw [hdd] at h
          cases r2 with
          | error e => simp at h
          | ok inc2 =>
            simp only at h
            obtain ⟨new2, hn1, hn2, hn3⟩ := hd f _ _ _ hdd
            rcases hll : findIncludesLoop descend read ps inc2 with _ | ⟨r3, l3⟩
            · rw [hll] at h; cases h
            · rw [hll] at h
              simp only [Option.some.injEq, Prod.mk.injEq] at h
              obtain ⟨h1, h2⟩ := h
              subst h1
              obtain ⟨new3, hm1, hm2, hm3⟩ := ih inc2 includes2 l3 hll
              refine ⟨f :: new2 ++ new3, ?_, ?_, ?_⟩
              · rw [hm1, hn1]; simp
              · intro q hq
                rcases List.mem_cons.mp hq with rfl | hq
                · rw [hm1, hn1]
                  simp [paths, hfp]
                · exact hm2 q hq
              · intro g hg
                rcases List.mem_append.mp hg with hg | hg
                · rw [hm1]
                  rcases List.mem_cons.mp hg with rfl | hg
                  · exact hn2.mono new3
                  · exact (hn3 g hg).mono new3
                · exact hm3 g hg

/-- A successful `findIncludes` extends `includes` so that what the scanned content declares,
and what every added file declares, is in the list. -/
theorem findIncludes_closed {R T : Type} (c : Code R T) (fs : String → Except Err String)
    (opts : Options) (fuel : Nat) (targetFile : File) (includes includes2 : List File)
    (l : List Event)
    (h : findIncludes c fs opts fuel targetFile.data includes targetFile =
      some (Except.ok includes2, l)) :
    ∃ new, includes2 = includes ++ new ∧ Declared c opts targetFile includes2 ∧
      ∀ g ∈ new, Declared c opts g includes2 := by
  induction fuel generalizing targetFile includes includes2 l with
  | zero => simp [findIncludes] at h
  | succ n ih =>
    unfold findIncludes at h
    cases hps : findIncludePaths c targetFile.data opts targetFile with
    | error e => rw [hps] at h; simp at h
    | ok ps =>
      rw [hps] at h
      simp only at h
      rcases hll : findIncludesLoop (fun d i t => findIncludes c fs opts n d i t)
          (fun p => readFile c fs p opts) ps includes with _ | ⟨r3, l3⟩
      · rw [hll] at h; cases h
      · rw [hll] at h
        simp only [Option.some.injEq, Prod.mk.injEq] at h
        obtain ⟨h1, h2⟩ := h
        subst h1
        obtain ⟨new, e1, e2, e3⟩ := findIncludesLoop_closed c opts _ _
          (fun f i i2 l hh => ih f i i2 l hh)
          (fun p => (readFile_log c fs p opts).2.2) ps includes includes2 l3 hll
        exact ⟨new, e1, ⟨ps, hps, e2⟩, e3⟩

/-- Claim C3. Whenever `readFiles` succeeds, the returned includes are closed under
inclusion: every include path declared in the content of the base file, of the inner file
or of a file of the includes is the path of a file of the includes; a path skipped because
it was already seen leaves nothing out. The source cache is only ever filled by `readFiles`,
so the property is stated as an invariant of the cache: if it holds of every cached source
before the call, it holds of the returned source and of every cached source after it. -/
theorem readFiles_closed {R T : Type} (c : Code R T)
    (fs : String → Except Err String) (fuel : Nat) (basePath innerPath : String)
    (opts : Options) (w w2 : World T) (src : source) (l : List Event)
    (hw : ∀ k s, getSourceCache w k = some s → Closed c opts s)
    (h : readFiles c fs fuel basePath innerPath opts w = some (Except.ok src, w2, l)) :
    Closed c opts src ∧ ∀ k s, getSourceCache w2 k = some s → Closed c opts s := by
  rcases readFiles_ok c fs fuel basePath innerPath opts w w2 src l h with ⟨h1, h2, _⟩ | hm
  · subst h2
    exact ⟨hw _ _ h1, hw⟩
  · obtain ⟨l1, l2, l3, l4, includes1, _, _, h3, h4, _, hw2⟩ :=
      readFilesMiss_ok c fs fuel basePath innerPath opts w w2 src l hm
    obtain ⟨new1, a1, a2, a3⟩ := findIncludes_closed c fs opts fuel _ _ _ _ h3
    obtain ⟨new2, b1, b2, b3⟩ := findIncludes_closed c fs opts fuel _ _ _ _ h4
    have hc : Closed c opts src := by
      refine ⟨?_, b2, ?_⟩
      · rw [b1]; exact a2.mono new2
      · intro f hf
        rw [b1] at hf
        rcases List.mem_append.mp hf with hf | hf
        · rw [b1]
          rw [a1, List.nil_append] at hf
          exact (a3 f hf).mono new2
        · exact b3 f hf
    refine ⟨hc, ?_⟩
    intro k s hk
    rw [hw2] at hk
    by_cases hs : (!opts.SourceCache) = true
    · rw [if_pos hs] at hk
      simp only [getSourceCache, setSourceCache] at hk
      by_cases hkn : k = basePath ++ colon ++ innerPath
      · rw [if_pos hkn] at hk
        simp only [Option.some.injEq] at hk
        rw [← hk]; exact hc
      · rw [if_neg hkn] at hk
        exact hw k s hk
    · rw [if_neg hs] at hk
      exact hw k s hk

/-- Claim C3 on the cycle `a` includes `b`, `b` includes `a`, loaded from `a`: the includes
`b`, `a` are closed, although the second scan of `a` skips `b`. -/
theorem readFiles_closed_witness :
    Closed sampleCode (sampleOptions false true)
      ⟨⟨"a", "include = b"⟩, ⟨"", ""⟩, [⟨"b", "include = a"⟩, ⟨"a", "include = b"⟩]⟩ :=
  (readFiles_closed sampleCode cycleFs 3 "a" "" (sampleOptions false true)
    emptyWorld emptyWorld
    ⟨⟨"a", "include = b"⟩, ⟨"", ""⟩, [⟨"b", "include = a"⟩, ⟨"a", "include = b"⟩]⟩
    [Event.readFile "a", Event.osRead "a.ace", Event.readFile "", Event.findIncludes "a",
      Event.readFile "b", Event.osRead "b.ace", Event.findIncludes "b", Event.readFile "a",
      Event.osRead "a.ace", Event.findIncludes "a", Event.findIncludes ""]
    (fun _ _ hk => by cases hk) rfl).1

/-! ## Reads and scans of one resolution -/

/-- The reads and scans of `readFilesMiss`, whatever its outcome: beyond the read and the scan
of the base file and of the inner file, no path is read twice and no file is scanned
twice. -/
theorem readFilesMiss_log {R T : Type} (c : Code R T) (fs : String → Except Err String)
    (fuel : Nat) (basePath innerPath : String) (opts : Options) (w w2 : World T)
    (r : Except Err source) (l : List Event)
    (h : readFilesMiss c fs fuel basePath innerPath opts w = some (r, w2, l)) :
    ∃ rs : List String, rs.Nodup ∧ (readPaths l).Sublist (basePath :: innerPath :: rs) ∧
      (scanPaths l).Subperm (basePath :: innerPath :: rs) := by
  unfold readFilesMiss at h
  obtain ⟨hb1, hb2, hb3⟩ := readFile_log c fs basePath opts
  obtain ⟨hi1, hi2, hi3⟩ := readFile_log c fs innerPath opts
  rcases hb : readFile c fs basePath opts with ⟨rb, l1⟩
  rw [hb] at h hb1 hb2 hb3
  simp only at hb1 hb2 hb3
  cases rb with
  | error e =>
    simp only [Option.some.injEq, Prod.mk.injEq] at h
    obtain ⟨_, _, e3⟩ := h
    subst e3
    refine ⟨[], List.nodup_nil, ?_, ?_⟩
    · rw [hb1]; exact (List.nil_sublist _).cons₂ _
    · rw [hb2]; exact (List.nil_sublist _).subperm
  | ok base =>
    have hbp : base.path = basePath := hb3 base rfl
    rcases hi : readFile c fs innerPath opts with ⟨ri, l2⟩
    rw [hi] at h hi1 hi2 hi3
    simp only at hi1 hi2 hi3
    cases ri with
    | error e =>
      simp only [Option.some.injEq, Prod.mk.injEq] at h
      obtain ⟨_, _, e3⟩ := h
      subst e3
      refine ⟨[], List.nodup_nil, ?_, ?_⟩
      · rw [readPaths_append, hb1, hi1]; exact List.Sublist.refl _
      · rw [scanPaths_append, hb2, hi2]; exact (List.nil_sublist _).subperm
    | ok inner =>
      have hip : inner.path = innerPath := hi3 inner rfl
      simp only at h
      rcases h3 : findIncludes c fs opts fuel base.data [] base with _ | ⟨r3, l3⟩
      · rw [h3] at h; cases h
      · rw [h3] at h
        obtain ⟨l3b, hl3, hA3, _, hC3, hD3⟩ := findIncludes_inv c fs opts fuel _ _ _ _ _ h3
        have er3 : readPaths (l1 ++ l2 ++ l3) = basePath :: innerPath :: readPaths l3b := by
          rw [readPaths_append, readPaths_append, hb1, hi1, hl3]; rfl
        have es3 : scanPaths (l1 ++ l2 ++ l3) = basePath :: scanPaths l3b := by
          rw [scanPaths_append, scanPaths_append, hb2, hi2, hl3, hbp]; rfl
        cases r3 with
        | error e =>
          simp only [Option.some.injEq, Prod.mk.injEq] at h
          obtain ⟨_, _, e3⟩ := h
          subst e3
          refine ⟨readPaths l3b, hA3, ?_, ?_⟩
          · rw [er3]
          · rw [es3]; exact ((hC3.cons innerPath).cons₂ basePath).subperm
        | ok includes1 =>
          simp only at h
          obtain ⟨new1, hn1, hn2, hn3⟩ := hD3 includes1 rfl
          rcases h4 : findIncludes c fs opts fuel inner.data includes1 inner with _ | ⟨r4, l4⟩
          · rw [h4] at h; cases h
          · rw [h4] at h
            obtain ⟨l4b, hl4, hA4, hB4, hC4, _⟩ := findIncludes_inv c fs opts fuel _ _ _ _ _ h4
            have er4 : readPaths (l1 ++ l2 ++ l3 ++ l4) =
                basePath :: innerPath :: (readPaths l3b ++ readPaths l4b) := by
              rw [readPaths_append, er3, hl4]; rfl
            have es4 : scanPaths (l1 ++ l2 ++ l3 ++ l4) =
                basePath :: (scanPaths l3b ++ innerPath :: scanPaths l4b) := by
              rw [scanPaths_append, es3, hl4, hip]; rfl
            have hl : l = l1 ++ l2 ++ l3 ++ l4 := by
              cases r4 with
              | error e =>
                simp only [Option.some.injEq, Prod.mk.injEq] at h
                exact h.2.2.symm
              | ok includes =>
                simp only at h
                split at h <;>
                · simp only [Option.some.injEq, Prod.mk.injEq] at h
                  exact h.2.2.symm
            subst hl
            refine ⟨readPaths l3b ++ readPaths l4b, ?_, ?_, ?_⟩
            · refine List.nodup_append.mpr ⟨hA3, hA4, ?_⟩
              intro q hq1 hq2
              apply hB4 q hq2
              rw [hn1, List.nil_append, hn2]
              exact hq1
            · rw [er4]
            · rw [es4]
              exact ⟨basePath :: innerPath :: (scanPaths l3b ++ scanPaths l4b),
                (List.perm_middle.symm).cons basePath,
                ((List.Sublist.append hC3 hC4).cons₂ innerPath).cons₂ basePath⟩

/-- The two ways `readFiles` returns: the cached source when `SourceCache` is off and the
key is cached, the outcome of `readFilesMiss` otherwise. -/
theorem readFiles_cases {R T : Type} (c : Code R T) (fs : String → Except Err String)
    (fuel : Nat) (basePath innerPath : String) (opts : Options) (w : World T)
    (out : Except Err source × World T × List Event)
    (h : readFiles c fs fuel basePath innerPath opts w = some out) :
    (∃ src, opts.SourceCache = false ∧
      getSourceCache w (basePath ++ colon ++ innerPath) = some src ∧
      out = (Except.ok src, w, [])) ∨
    readFilesMiss c fs fuel basePath innerPath opts w = some out := by
  unfold readFiles at h
  simp only at h
  split at h
  · rename_i hs
    split at h
    · rename_i s hc
      simp only [Option.some.injEq] at h
      exact Or.inl ⟨s, by simpa using hs, hc, h.symm⟩
    · exact Or.inr h
  · exact Or.inr h

/-- Claim C4, as amended. In one `readFiles` call, whatever its outcome, include discovery
never reads a path twice and never scans a file twice: the logical paths that
`findIncludes` passes to `readFile` are pairwise distinct (`rs`), and so are the files it
descends into. The base file and the inner file are read and scanned by `readFiles` itself
and are not in the list that `hasFile` searches, so a path is read at most once more as base
path and once more as inner path. -/
theorem readFiles_reads_once {R T : Type} (c : Code R T) (fs : String → Except Err String)
    (fuel : Nat) (basePath innerPath : String) (opts : Options) (w w2 : World T)
    (r : Except Err source) (l : List Event)
    (h : readFiles c fs fuel basePath innerPath opts w = some (r, w2, l)) :
    ∃ rs : List String, rs.Nodup ∧ (readPaths l).Sublist (basePath :: innerPath :: rs) ∧
      (scanPaths l).Subperm (basePath :: innerPath :: rs) := by
  rcases readFiles_cases c fs fuel basePath innerPath opts w _ h with ⟨src, _, _, ho⟩ | hm
  · simp only [Prod.mk.injEq] at ho
    obtain ⟨_, _, hl⟩ := ho
    subst hl
    exact ⟨[], List.nodup_nil, List.nil_sublist _, (List.nil_sublist _).subperm⟩
  · exact readFilesMiss_log c fs fuel basePath innerPath opts w w2 r l hm

/-- Claim C4 as amended, on the cycle `a` includes `b`, `b` includes `a`, loaded from `a`:
include discovery reads `b` and `a` once each. -/
theorem readFiles_reads_once_witness :
    ∃ rs : List String, rs.Nodup ∧
      (readPaths [Event.readFile "a", Event.osRead "a.ace", Event.readFile "",
        Event.findIncludes "a", Event.readFile "b", Event.osRead "b.ace",
        Event.findIncludes "b", Event.readFile "a", Event.osRead "a.ace",
        Event.findIncludes "a", Event.findIncludes ""]).Sublist ("a" :: "" :: rs) ∧
      (scanPaths [Event.readFile "a", Event.osRead "a.ace", Event.readFile "",
        Event.findIncludes "a", Event.readFile "b", Event.osRead "b.ace",
        Event.findIncludes "b", Event.readFile "a", Event.osRead "a.ace",
        Event.findIncludes "a", Event.findIncludes ""]).Subperm ("a" :: "" :: rs) :=
  readFiles_reads_once sampleCode cycleFs 3 "a" "" (sampleOptions false true)
    emptyWorld emptyWorld
    (Except.ok ⟨⟨"a", "include = b"⟩, ⟨"", ""⟩, [⟨"b", "include = a"⟩, ⟨"a", "include = b"⟩]⟩)
    _ rfl

/-- Claim C4 as stated fails. With `a` including `b` and `b` including `a`, resolving base
`a` with no inner file passes the path `a` to `readFile` twice (as base file, and as the
include of `b`) and scans the content of `a` twice. -/
theorem readFiles_reads_twice :
    (readFiles sampleCode cycleFs 3 "a" "" (sampleOptions false true) emptyWorld).map
        (fun out => (readPaths out.2.2, scanPaths out.2.2)) =
      some (["a", "", "b", "a"], ["a", "b", "a", ""]) ∧
    ¬ (["a", "", "b", "a"] : List String).Nodup ∧
    ¬ (["a", "b", "a", ""] : List String).Nodup :=
  ⟨rfl, by decide, by decide⟩

/-! ## The source cache flag -/

/-- Claim C5 fails on the code: the test of `SourceCache` is negated. With `SourceCache` on
and a source cached under the key `a:`, `readFiles` reads the files and returns the fresh
source, and does not store it; with `SourceCache` off it returns the cached source without
reading a file. -/
theorem readFiles_sourceCache_negated :
    (readFiles sampleCode cycleFs 3 "a" "" (sampleOptions false true)
        (setSourceCache emptyWorld "a:" staleSource)).map
        (fun out => (out.1, getSourceCache out.2.1 "a:", readPaths out.2.2)) =
      some (Except.ok ⟨⟨"a", "include = b"⟩, ⟨"", ""⟩,
          [⟨"b", "include = a"⟩, ⟨"a", "include = b"⟩]⟩,
        some staleSource, ["a", "", "b", "a"]) ∧
    (readFiles sampleCode cycleFs 3 "a" "" (sampleOptions false false)
        (setSourceCache emptyWorld "a:" staleSource)).map
        (fun out => (out.1, out.2.2)) =
      some (Except.ok staleSource, []) ∧
    (readFiles sampleCode cycleFs 3 "a" "" (sampleOptions false false) emptyWorld).map
        (fun out => getSourceCache out.2.1 "a:") =
      some (some ⟨⟨"a", "include = b"⟩, ⟨"", ""⟩,
          [⟨"b", "include = a"⟩, ⟨"a", "include = b"⟩]⟩) :=
  ⟨rfl, rfl, rfl⟩

/-! ## The caches across a call -/

/-- What `readFilesMiss` does to the caches: nothing, or it stores the source it returns
under the key of the call. -/
theorem readFilesMiss_world {R T : Type} (c : Code R T) (fs : String → Except Err String)
    (fuel : Nat) (basePath innerPath : String) (opts : Options) (w w2 : World T)
    (r : Except Err source) (l : List Event)
    (h : readFilesMiss c fs fuel basePath innerPath opts w = some (r, w2, l)) :
    w2 = w ∨ ∃ src, r = Except.ok src ∧
      w2 = setSourceCache w (basePath ++ colon ++ innerPath) src := by
  unfold readFilesMiss at h
  rcases hb : readFile c fs basePath opts with ⟨rb, l1⟩
  rw [hb] at h
  cases rb with
  | error e =>
    simp only [Option.some.injEq, Prod.mk.injEq] at h
    exact Or.inl h.2.1.symm
  | ok base =>
    rcases hi : readFile c fs innerPath opts with ⟨ri, l2⟩
    rw [hi] at h
    cases ri with
    | error e =>
      simp only [Option.some.injEq, Prod.mk.injEq] at h
      exact Or.inl h.2.1.symm
    | ok inner =>
      simp only at h
      rcases h3 : findIncludes c fs opts fuel base.data [] base with _ | ⟨r3, l3⟩
      · rw [h3] at h; cases h
      · rw [h3] at h
        cases r3 with
        | error e =>
          simp only [Option.some.injEq, Prod.mk.injEq] at h
          exact Or.inl h.2.1.symm
        | ok includes1 =>
          simp only at h
          rcases h4 : findIncludes c fs opts fuel inner.data includes1 inner with _ | ⟨r4, l4⟩
          · rw [h4] at h; cases h
          · rw [h4] at h
            cases r4 with
            | error e =>
              simp only [Option.some.injEq, Prod.mk.injEq] at h
              exact Or.inl h.2.1.symm
            | ok includes =>
              simp only at h
              split at h
              · simp only [Option.some.injEq, Prod.mk.injEq] at h
                exact Or.inr ⟨_, h.1.symm, h.2.1.symm⟩
              · simp only [Option.some.injEq, Prod.mk.injEq] at h
                exact Or.inl h.2.1.symm

/-- What `readFiles` does to the caches: nothing, or it stores the source it returns under
the key of the call; the template cache is never touched. -/
theorem readFiles_world {R T : Type} (c : Code R T) (fs : String → Except Err String)
    (fuel : Nat) (basePath innerPath : String) (opts : Options) (w w2 : World T)
    (r : Except Err source) (l : List Event)
    (h : readFiles c fs fuel basePath innerPath opts w = some (r, w2, l)) :
    w2 = w ∨ ∃ src, r = Except.ok src ∧
      w2 = setSourceCache w (basePath ++ colon ++ innerPath) src := by
  rcases readFiles_cases c fs fuel basePath innerPath opts w _ h with ⟨src, _, _, ho⟩ | hm
  · simp only [Prod.mk.injEq] at ho
    exact Or.inl ho.2.1
  · exact readFilesMiss_world c fs fuel basePath innerPath opts w w2 r l hm

/-- How `LoadMiss` returns: the error of `readFiles`, of `ParseSource` or of
`CompileResult`, or the compiled template, stored when `TemplateCache` is on. -/
theorem LoadMiss_cases {R T : Type} (c : Code R T) (fs : String → Except Err String)
    (fuel : Nat) (basePath innerPath : String) (opts : Options) (w w1 : World T)
    (r : Except Err T) (l : List Event)
    (h : LoadMiss c fs fuel basePath innerPath opts w = some (r, w1, l)) :
    (∃ e, readFiles c fs fuel basePath innerPath opts w = some (Except.error e, w1, l) ∧
      r = Except.error e) ∨
    ∃ src w2 l2, readFiles c fs fuel basePath innerPath opts w = some (Except.ok src, w2, l2) ∧
      ((∃ e, c.ParseSource src opts = Except.error e ∧ r = Except.error e ∧ w1 = w2 ∧
          l = l2 ++ [Event.ParseSource]) ∨
        ∃ rslt, c.ParseSource src opts = Except.ok rslt ∧
          l = l2 ++ [Event.ParseSource, Event.CompileResult] ∧
          ((∃ e, c.CompileResult (basePath ++ colon ++ innerPath) rslt opts = Except.error e ∧
              r = Except.error e ∧ w1 = w2) ∨
            ∃ tpl, c.CompileResult (basePath ++ colon ++ innerPath) rslt opts = Except.ok tpl ∧
              r = Except.ok tpl ∧
              w1 = (if opts.TemplateCache then
                setTemplateCache w2 (basePath ++ colon ++ innerPath) tpl else w2))) := by
  unfold LoadMiss at h
  simp only at h
  rcases hr : readFiles c fs fuel basePath innerPath opts w with _ | ⟨rs, w2, l2⟩
  · rw [hr] at h; cases h
  · rw [hr] at h
    cases rs with
    | error e =>
      simp only [Option.some.injEq, Prod.mk.injEq] at h
      obtain ⟨e1, e2, e3⟩ := h
      subst e1 e2 e3
      exact Or.inl ⟨e, rfl, rfl⟩
    | ok src =>
      refine Or.inr ⟨src, w2, l2, rfl, ?_⟩
      simp only at h
      cases hp : c.ParseSource src opts with
      | error e =>
        rw [hp] at h
        simp only [Option.some.injEq, Prod.mk.injEq] at h
        obtain ⟨e1, e2, e3⟩ := h
        exact Or.inl ⟨e, rfl, e1.symm, e2.symm, e3.symm⟩
      | ok rslt =>
        rw [hp] at h
        simp only at h
        cases hc : c.CompileResult (basePath ++ colon ++ innerPath) rslt opts with
        | error e =>
          rw [hc] at h
          simp only [Option.some.injEq, Prod.mk.injEq] at h
          obtain ⟨e1, e2, e3⟩ := h
          exact Or.inr ⟨rslt, rfl, e3.symm, Or.inl ⟨e, hc, e1.symm, e2.symm⟩⟩
        | ok tpl =>
          rw [hc] at h
          simp only at h
          by_cases ht : opts.TemplateCache = true
          · rw [if_pos ht] at h
            simp only [Option.some.injEq, Prod.mk.injEq] at h
            obtain ⟨e1, e2, e3⟩ := h
            exact Or.inr ⟨rslt, rfl, e3.symm, Or.inr ⟨tpl, hc, e1.symm, by rw [if_pos ht, e2]⟩⟩
          · rw [if_neg ht] at h
            simp only [Option.some.injEq, Prod.mk.injEq] at h
            obtain ⟨e1, e2, e3⟩ := h
            exact Or.inr ⟨rslt, rfl, e3.symm, Or.inr ⟨tpl, hc, e1.symm, by rw [if_neg ht, e2]⟩⟩

/-- The two ways `Load` returns: the cached template when `TemplateCache` is on and the key
is cached, the outcome of `LoadMiss` otherwise. -/
theorem Load_cases {R T : Type} (c : Code R T) (fs : String → Except Err String)
    (fuel : Nat) (basePath innerPath : String) (opts : Option Options) (w : World T)
    (out : Except Err T × World T × List Event)
    (h : Load c fs fuel basePath innerPath opts w = some out) :
    (∃ tpl, (c.InitializeOptions opts).TemplateCache = true ∧
      getTemplateCache w (basePath ++ colon ++ innerPath) = some tpl ∧
      out = (Except.ok tpl, w, [])) ∨
    LoadMiss c fs fuel basePath innerPath (c.InitializeOptions opts) w = some out := by
  unfold Load at h
  simp only at h
  split at h
  · rename_i hs
    split at h
    · rename_i s hc
      simp only [Option.some.injEq] at h
      exact Or.inl ⟨s, hs, hc, h.symm⟩
    · exact Or.inr h
  · exact Or.inr h

/-! ## The template cache -/

/-- Claim C6. With `TemplateCache` on, after a `Load` that succeeded with template `t` a
second `Load` with the same arguments returns `t` again without error and does nothing
else: no file is read, no asset is fetched, `ParseSource` and `CompileResult` are not
called (the event list is empty) and the caches are unchanged. This holds whatever the
filesystem is at the second call and however little fuel it gets. -/
theorem Load_cache_hit {R T : Type} (c : Code R T) (fs1 fs2 : String → Except Err String)
    (fuel1 fuel2 : Nat) (basePath innerPath : String) (opts : Option Options)
    (w w1 : World T) (t : T) (l1 : List Event)
    (hT : (c.InitializeOptions opts).TemplateCache = true)
    (h1 : Load c fs1 fuel1 basePath innerPath opts w = some (Except.ok t, w1, l1)) :
    Load c fs2 fuel2 basePath innerPath opts w1 = some (Except.ok t, w1, []) := by
  have key : getTemplateCache w1 (basePath ++ colon ++ innerPath) = some t := by
    rcases Load_cases c fs1 fuel1 basePath innerPath opts w _ h1 with ⟨tpl, _, hc, ho⟩ | hm
    · simp only [Prod.mk.injEq, Except.ok.injEq] at ho
      obtain ⟨e1, e2, _⟩ := ho
      subst e1 e2
      exact hc
    · rcases LoadMiss_cases c fs1 fuel1 basePath innerPath _ w w1 _ l1 hm with
        ⟨e, _, he⟩ | ⟨src, w2, l2, _, ⟨e, _, he, _⟩ | ⟨rslt, _, _, ⟨e, _, he, _⟩ |
          ⟨tpl, _, ht, hw⟩⟩⟩
      · cases he
      · cases he
      · cases he
      · simp only [Except.ok.injEq] at ht
        subst ht
        rw [hw, if_pos hT]
        simp [getTemplateCache, setTemplateCache]
  unfold Load
  simp only
  rw [if_pos hT, key]

/-- Claim C6 on the files `a` and `b`: after the first `Load` the files are gone and the
second `Load`, with no fuel at all, still returns the template. -/
theorem Load_cache_hit_witness :
    Load sampleCode noFs 0 "a" "b" (some (sampleOptions true true))
        (setTemplateCache emptyWorld "a:b" "a:b=include = a") =
      some (Except.ok "a:b=include = a",
        setTemplateCache emptyWorld "a:b" "a:b=include = a", []) :=
  Load_cache_hit sampleCode cycleFs noFs 3 0 "a" "b" (some (sampleOptions true true))
    emptyWorld (setTemplateCache emptyWorld "a:b" "a:b=include = a") "a:b=include = a"
    [Event.readFile "a", Event.osRead "a.ace", Event.readFile "b", Event.osRead "b.ace",
      Event.findIncludes "a", Event.readFile "b", Event.osRead "b.ace",
      Event.findIncludes "b", Event.readFile "a", Event.osRead "a.ace",
      Event.findIncludes "a", Event.findIncludes "b", Event.ParseSource,
      Event.CompileResult]
    rfl rfl

/-- The template cache is a frame of `readFilesMiss`: it passes through unread. -/
theorem readFilesMiss_frame {R T : Type} (c : Code R T) (fs : String → Except Err String)
    (fuel : Nat) (basePath innerPath : String) (opts : Options)
    (tc tc2 : String → Option T) (sc : String → Option source) :
    readFilesMiss c fs fuel basePath innerPath opts ⟨tc, sc⟩ =
      (readFilesMiss c fs fuel basePath innerPath opts ⟨tc2, sc⟩).map
        (fun out => (out.1, ⟨tc, out.2.1.sourceCache⟩, out.2.2)) := by
  unfold readFilesMiss
  rcases readFile c fs basePath opts with ⟨rb, l1⟩
  cases rb with
  | error e => rfl
  | ok base =>
    rcases readFile c fs innerPath opts with ⟨ri, l2⟩
    cases ri with
    | error e => rfl
    | ok inner =>
      simp only
      rcases findIncludes c fs opts fuel base.data [] base with _ | ⟨r3, l3⟩
      · rfl
      · cases r3 with
        | error e => rfl
        | ok includes1 =>
          simp only
          rcases findIncludes c fs opts fuel inner.data includes1 inner with _ | ⟨r4, l4⟩
          · rfl
          · cases r4 with
            | error e => rfl
            | ok includes =>
              simp only
              split <;> rfl

/-- The template cache is a frame of `readFiles`: it passes through unread. -/
theorem readFiles_frame {R T : Type} (c : Code R T) (fs : String → Except Err String)
    (fuel : Nat) (basePath innerPath : String) (opts : Options)
    (tc tc2 : String → Option T) (sc : String → Option source) :
    readFiles c fs fuel basePath innerPath opts ⟨tc, sc⟩ =
      (readFiles c fs fuel basePath innerPath opts ⟨tc2, sc⟩).map
        (fun out => (out.1, ⟨tc, out.2.1.sourceCache⟩, out.2.2)) := by
  unfold readFiles
  simp only [getSourceCache]
  split
  · cases sc (basePath ++ colon ++ innerPath) with
    | some src => rfl
    | none => exact readFilesMiss_frame c fs fuel basePath innerPath opts tc tc2 sc
  · exact readFilesMiss_frame c fs fuel basePath innerPath opts tc tc2 sc

/-- With `TemplateCache` off the template cache is a frame of `LoadMiss`. -/
theorem LoadMiss_frame {R T : Type} (c : Code R T) (fs : String → Except Err String)
    (fuel : Nat) (basePath innerPath : String) (opts : Options)
    (hT : opts.TemplateCache = false)
    (tc tc2 : String → Option T) (sc : String → Option source) :
    LoadMiss c fs fuel basePath innerPath opts ⟨tc, sc⟩ =
      (LoadMiss c fs fuel basePath innerPath opts ⟨tc2, sc⟩).map
        (fun out => (out.1, ⟨tc, out.2.1.sourceCache⟩, out.2.2)) := by
  unfold LoadMiss
  simp only
  rw [readFiles_frame c fs fuel basePath innerPath opts tc tc2 sc]
  rcases readFiles c fs fuel basePath innerPath opts ⟨tc2, sc⟩ with _ | ⟨rs, w2, l2⟩
  · rfl
  · cases rs with
    | error e => rfl
    | ok src =>
      simp only [Option.map_some']
      cases c.ParseSource src opts with
      | error e => rfl
      | ok rslt =>
        simp only
        cases c.CompileResult (basePath ++ colon ++ innerPath) rslt opts with
        | error e => rfl
        | ok tpl =>
          simp only [hT]
          rfl

/-- Claim C7. With `TemplateCache` off, `Load` neither reads nor writes the template cache:
from two cache states that differ only in the template cache it returns the same result,
the same source cache and the same events; the template cache after the call is the one
before it; and a call that succeeds has run `ParseSource` and `CompileResult`. -/
theorem Load_template_cache_off {R T : Type} (c : Code R T)
    (fs : String → Except Err String) (fuel : Nat) (basePath innerPath : String)
    (opts : Option Options) (hT : (c.InitializeOptions opts).TemplateCache = false)
    (w w2 : World T) (hs : w.sourceCache = w2.sourceCache) :
    (Load c fs fuel basePath innerPath opts w).map
        (fun out => (out.1, out.2.1.sourceCache, out.2.2)) =
      (Load c fs fuel basePath innerPath opts w2).map
        (fun out => (out.1, out.2.1.sourceCache, out.2.2)) ∧
    ∀ r w1 l, Load c fs fuel basePath innerPath opts w = some (r, w1, l) →
      w1.templateCache = w.templateCache ∧
      ∀ t, r = Except.ok t → Event.ParseSource ∈ l ∧ Event.CompileResult ∈ l := by
  have hL : ∀ v : World T, Load c fs fuel basePath innerPath opts v =
      LoadMiss c fs fuel basePath innerPath (c.InitializeOptions opts) v := by
    intro v
    unfold Load
    simp only [hT]
    rfl
  constructor
  · rw [hL, hL]
    obtain ⟨tc, sc⟩ := w
    obtain ⟨tc2, sc2⟩ := w2
    simp only at hs
    subst hs
    rw [LoadMiss_frame c fs fuel basePath innerPath _ hT tc tc2 sc]
    cases LoadMiss c fs fuel basePath innerPath (c.InitializeOptions opts) ⟨tc2, sc⟩ <;> rfl
  · intro r w1 l h
    rw [hL] at h
    have hw : ∀ (rs : Except Err source) (v : World T) (l2 : List Event),
        readFiles c fs fuel basePath innerPath (c.InitializeOptions opts) w = some (rs, v, l2) →
        v.templateCache = w.templateCache := by
      intro rs v l2 hr
      rcases readFiles_world c fs fuel basePath innerPath _ w v rs l2 hr with e | ⟨src, _, e⟩
      · rw [e]
      · rw [e]; rfl
    rcases LoadMiss_cases c fs fuel basePath innerPath _ w w1 _ l h with
      ⟨e, hr, he⟩ | ⟨src, v, l2, hr, ⟨e, _, he, hv, _⟩ | ⟨rslt, _, hl, ⟨e, _, he, hv⟩ |
        ⟨tpl, _, _, hv⟩⟩⟩
    · exact ⟨hw _ _ _ hr, fun t ht => by rw [he] at ht; cases ht⟩
    · exact ⟨hv ▸ hw _ _ _ hr, fun t ht => by rw [he] at ht; cases ht⟩
    · exact ⟨hv ▸ hw _ _ _ hr, fun t ht => by rw [he] at ht; cases ht⟩
    · refine ⟨?_, fun t _ => ?_⟩
      · rw [hv, hT]
        exact hw _ _ _ hr
      · rw [hl]
        simp

/-- Claim C7 on the files `a` and `b`: a template cached under the key of the call is
ignored. -/
theorem Load_template_cache_off_witness :
    (Load sampleCode cycleFs 3 "a" "b" (some (sampleOptions false true)) emptyWorld).map
        (fun out => (out.1, out.2.1.sourceCache, out.2.2)) =
      (Load sampleCode cycleFs 3 "a" "b" (some (sampleOptions false true))
        (setTemplateCache emptyWorld "a:b" "stale")).map
        (fun out => (out.1, out.2.1.sourceCache, out.2.2)) :=
  (Load_template_cache_off sampleCode cycleFs 3 "a" "b" (some (sampleOptions false true)) rfl
    emptyWorld (setTemplateCache emptyWorld "a:b" "stale") rfl).1

/-! ## Errors and the caches -/

/-- Claim C8, as amended. If `Load` returns an error, the template cache is as before the
call. If the error is the error of `readFiles` (file lookup or include discovery), the
source cache is as before the call too. Otherwise `readFiles` succeeded before
`ParseSource` or `CompileResult` failed, and the caches are those `readFiles` left: as
before the call, or with the complete source that `readFiles` returned stored under the
key of the call. -/
theorem Load_error_caches {R T : Type} (c : Code R T) (fs : String → Except Err String)
    (fuel : Nat) (basePath innerPath : String) (opts : Option Options) (w w1 : World T)
    (e : Err) (l : List Event)
    (h : Load c fs fuel basePath innerPath opts w = some (Except.error e, w1, l)) :
    w1.templateCache = w.templateCache ∧
    ((readFiles c fs fuel basePath innerPath (c.InitializeOptions opts) w =
        some (Except.error e, w1, l) ∧ w1 = w) ∨
      ∃ src l2, readFiles c fs fuel basePath innerPath (c.InitializeOptions opts) w =
          some (Except.ok src, w1, l2) ∧
        (w1 = w ∨ w1 = setSourceCache w (basePath ++ colon ++ innerPath) src)) := by
  rcases Load_cases c fs fuel basePath innerPath opts w _ h with ⟨tpl, _, _, ho⟩ | hm
  · simp only [Prod.mk.injEq] at ho
    cases ho.1
  · have hw : ∀ (rs : Except Err source) (v : World T) (l2 : List Event),
        readFiles c fs fuel basePath innerPath (c.InitializeOptions opts) w = some (rs, v, l2) →
        v.templateCache = w.templateCache ∧
        (v = w ∨ ∃ src, rs = Except.ok src ∧
          v = setSourceCache w (basePath ++ colon ++ innerPath) src) := by
      intro rs v l2 hr
      have := readFiles_world c fs fuel basePath innerPath _ w v rs l2 hr
      refine ⟨?_, this⟩
      rcases this with e1 | ⟨src, _, e1⟩
      · rw [e1]
      · rw [e1]; rfl
    have hok : ∀ (src : source) (l2 : List Event),
        readFiles c fs fuel basePath innerPath (c.InitializeOptions opts) w =
          some (Except.ok src, w1, l2) →
        w1 = w ∨ w1 = setSourceCache w (basePath ++ colon ++ innerPath) src := by
      intro src l2 hr
      rcases (hw _ _ _ hr).2 with e1 | ⟨src2, e2, e1⟩
      · exact Or.inl e1
      · simp only [Except.ok.injEq] at e2
        subst e2
        exact Or.inr e1
    rcases LoadMiss_cases c fs fuel basePath innerPath _ w w1 _ l hm with
      ⟨e2, hr, he⟩ | ⟨src, v, l2, hr, ⟨e2, _, _, hv, _⟩ | ⟨rslt, _, _, ⟨e2, _, _, hv⟩ |
        ⟨tpl, _, he, _⟩⟩⟩
    · simp only [Except.error.injEq] at he
      subst he
      refine ⟨(hw _ _ _ hr).1, Or.inl ⟨hr, ?_⟩⟩
      rcases (hw _ _ _ hr).2 with e1 | ⟨src, e3, _⟩
      · exact e1
      · cases e3
    · subst hv
      exact ⟨(hw _ _ _ hr).1, Or.inr ⟨src, l2, hr, hok src l2 hr⟩⟩
    · subst hv
      exact ⟨(hw _ _ _ hr).1, Or.inr ⟨src, l2, hr, hok src l2 hr⟩⟩
    · cases he

/-- Claim C8 as amended, on a missing file: the error of `readFile` leaves both caches as
they were. -/
theorem Load_error_caches_witness :
    (emptyWorld : World String).templateCache = (emptyWorld : World String).templateCache ∧
    ((readFiles sampleCode noFs 3 "a" "" (sampleCode.InitializeOptions
          (some (sampleOptions true false))) emptyWorld =
        some (Except.error "no such file", emptyWorld,
          [Event.readFile "a", Event.osRead "a.ace"]) ∧
        (emptyWorld : World String) = emptyWorld) ∨
      ∃ src l2, readFiles sampleCode noFs 3 "a" "" (sampleCode.InitializeOptions
          (some (sampleOptions true false))) emptyWorld =
          some (Except.ok src, emptyWorld, l2) ∧
        ((emptyWorld : World String) = emptyWorld ∨
          (emptyWorld : World String) = setSourceCache emptyWorld ("a" ++ colon ++ "") src)) :=
  Load_error_caches sampleCode noFs 3 "a" "" (some (sampleOptions true false)) emptyWorld
    emptyWorld "no such file" [Event.readFile "a", Event.osRead "a.ace"] rfl

/-- Claim C8 as stated fails. `Load` of base `a` with no inner file reads and assembles the
source, stores it in the source cache, and then fails in `ParseSource`: the call returns an
error and the source cache, empty before the call, holds an entry for the key `a:`. -/
theorem Load_error_after_source_cached :
    (Load sampleCode cycleFs 3 "a" "" (some (sampleOptions true false)) emptyWorld).map
        (fun out => (out.1, getSourceCache out.2.1 "a:")) =
      some (Except.error "empty template",
        some ⟨⟨"a", "include = b"⟩, ⟨"", ""⟩,
          [⟨"b", "include = a"⟩, ⟨"a", "include = b"⟩]⟩) ∧
    getSourceCache (emptyWorld : World String) "a:" = none :=
  ⟨rfl, rfl⟩

/-! ## Flushing -/

theorem mem_readPaths (l : List Event) (p : String) : p ∈ readPaths l ↔ Event.readFile p ∈ l := by
  induction l with
  | nil => simp [readPaths]
  | cons e l ih => cases e <;> simp [readPaths, ih]

/-- Claim C9. No stale value survives a flush: after `FlushTemplateCache` no key is found in
the template cache and after `FlushSourceCache` no key is found in the source cache; a
`Load` after both flushes is the `Load` on empty caches, whatever was cached before; and
when it succeeds it has read the base and the inner file, has run `ParseSource` and
`CompileResult`, and returns the template compiled from the source assembled from the
current files. -/
theorem flush_no_stale {R T : Type} (c : Code R T) (fs : String → Except Err String)
    (fuel : Nat) (basePath innerPath : String) (opts : Option Options) (w : World T) :
    (∀ k, getTemplateCache (FlushTemplateCache w) k = none) ∧
    (∀ k, getSourceCache (FlushSourceCache w) k = none) ∧
    Load c fs fuel basePath innerPath opts (FlushSourceCache (FlushTemplateCache w)) =
      Load c fs fuel basePath innerPath opts emptyWorld ∧
    ∀ t w1 l,
      Load c fs fuel basePath innerPath opts (FlushSourceCache (FlushTemplateCache w)) =
        some (Except.ok t, w1, l) →
      ∃ src rslt w2 l2,
        readFilesMiss c fs fuel basePath innerPath (c.InitializeOptions opts) emptyWorld =
          some (Except.ok src, w2, l2) ∧
        c.ParseSource src (c.InitializeOptions opts) = Except.ok rslt ∧
        c.CompileResult (basePath ++ colon ++ innerPath) rslt (c.InitializeOptions opts) =
          Except.ok t ∧
        l = l2 ++ [Event.ParseSource, Event.CompileResult] ∧
        Event.readFile basePath ∈ l ∧ Event.readFile innerPath ∈ l := by
  refine ⟨fun _ => rfl, fun _ => rfl, rfl, ?_⟩
  intro t w1 l h
  have h0 : Load c fs fuel basePath innerPath opts emptyWorld = some (Except.ok t, w1, l) := h
  rcases Load_cases c fs fuel basePath innerPath opts emptyWorld _ h0 with
    ⟨tpl, _, hc, _⟩ | hm
  · cases hc
  · rcases LoadMiss_cases c fs fuel basePath innerPath _ emptyWorld w1 _ l hm with
      ⟨e, _, he⟩ | ⟨src, w2, l2, hr, ⟨e, _, he, _⟩ | ⟨rslt, hp, hl, ⟨e, _, he, _⟩ |
        ⟨tpl, hcr, ht, _⟩⟩⟩
    · cases he
    · cases he
    · cases he
    · simp only [Except.ok.injEq] at ht
      subst ht
      rcases readFiles_cases c fs fuel basePath innerPath _ emptyWorld _ hr with
        ⟨s, _, hs, _⟩ | hmiss
      · cases hs
      · obtain ⟨l1, l2b, l3, l4, includes1, hb, hi, _, _, hl2, _⟩ :=
          readFilesMiss_ok c fs fuel basePath innerPath _ emptyWorld w2 src l2 hmiss
        refine ⟨src, rslt, w2, l2, hmiss, hp, hcr, hl, ?_, ?_⟩
        · rw [hl, hl2, ← mem_readPaths]
          have := (readFile_log c fs basePath (c.InitializeOptions opts)).1
          rw [hb] at this
          simp only [readPaths_append]
          simp [this]
        · rw [hl, hl2, ← mem_readPaths]
          have := (readFile_log c fs innerPath (c.InitializeOptions opts)).1
          rw [hi] at this
          simp only [readPaths_append]
          simp [this]

/-- Claim C9 on a stale template cached under the key `a:b`: after the flushes `Load`
compiles the files again. -/
theorem flush_no_stale_witness :
    Load sampleCode cycleFs 3 "a" "b" (some (sampleOptions true true))
        (FlushSourceCache (FlushTemplateCache (setTemplateCache emptyWorld "a:b" "stale"))) =
      Load sampleCode cycleFs 3 "a" "b" (some (sampleOptions true true)) emptyWorld :=
  (flush_no_stale sampleCode cycleFs 3 "a" "b" (some (sampleOptions true true))
    (setTemplateCache emptyWorld "a:b" "stale")).2.2.1

/-! ## Directory fallback -/

theorem string_length_pos_of_ne (s : String) (h : s ≠ "") : s.length > 0 := by
  by_contra hn
  apply h
  apply String.ext
  exact List.length_eq_zero.mp (Nat.eq_zero_of_not_pos hn)

theorem readFileLoop_first_success {R T : Type} (c : Code R T)
    (fs : String → Except Err String) (path : String) (opts : Options)
    (d : String) (post : List String) (data : String)
    (hd : (readCandidate fs opts (candidate c path opts d)).1 = Except.ok data)
    (pre : List String) (v : String) (rest : List String)
    (hdirs : v :: rest = pre ++ d :: post)
    (hpre : ∀ u ∈ pre, ∀ x, (readCandidate fs opts (candidate c path opts u)).1 ≠ Except.ok x) :
    (readFileLoop c fs path opts v rest).1 = Except.ok ⟨path, data⟩ := by
  induction pre generalizing v rest with
  | nil =>
    simp only [List.nil_append, List.cons.injEq] at hdirs
    obtain ⟨hv, _⟩ := hdirs
    subst hv
    unfold candidate at hd
    rcases hrc : readCandidate fs opts (c.Join v (path ++ dot ++ opts.Extension)) with ⟨r, l⟩
    rw [hrc] at hd
    simp only at hd
    subst hd
    cases rest with
    | nil => simp [readFileLoop, hrc, NewFile]
    | cons v2 rest2 => simp [readFileLoop, hrc, NewFile]
  | cons u pre ih =>
    simp only [List.cons_append, List.cons.injEq] at hdirs
    obtain ⟨hv, hrest⟩ := hdirs
    subst hv
    have hu := hpre v (List.mem_cons_self _ _)
    unfold candidate at hu
    rcases hrc : readCandidate fs opts (c.Join v (path ++ dot ++ opts.Extension)) with ⟨r, l⟩
    rw [hrc] at hu
    simp only at hu
    cases r with
    | ok x => exact absurd rfl (hu x)
    | error e =>
      cases rest with
      | nil => cases pre <;> simp at hrest
      | cons v2 rest2 =>
        have := ih v2 rest2 hrest (fun u2 hu2 => hpre u2 (List.mem_cons_of_mem _ hu2))
        unfold readFileLoop
        rw [hrc]
        simp only
        exact this

/-- Claim C10. For a non-empty logical path, `readFile` returns the content of the candidate
`directory/path.extension` of the first directory, in the configured order, whose read
succeeds (every directory before it fails), and the file it returns carries the logical
path, not the name of the candidate. -/
theorem readFile_first_success {R T : Type} (c : Code R T) (fs : String → Except Err String)
    (path : String) (opts : Options) (pre : List String) (d : String) (post : List String)
    (data : String) (hpath : path ≠ "") (hdirs : dirsOf opts = pre ++ d :: post)
    (hpre : ∀ u ∈ pre, ∀ x, (readCandidate fs opts (candidate c path opts u)).1 ≠ Except.ok x)
    (hd : (readCandidate fs opts (candidate c path opts d)).1 = Except.ok data) :
    (readFile c fs path opts).1 = Except.ok ⟨path, data⟩ := by
  unfold readFile
  rw [if_pos (string_length_pos_of_ne path hpath)]
  unfold dirsOf at hdirs
  cases hb : opts.BaseDirs with
  | nil =>
    rw [hb] at hdirs
    simp only [List.length_nil, if_true] at hdirs
    exact readFileLoop_first_success c fs path opts d post data hd pre "" [] hdirs hpre
  | cons v rest =>
    rw [hb] at hdirs
    simp only [List.length_cons, Nat.succ_ne_zero, if_false] at hdirs
    exact readFileLoop_first_success c fs path opts d post data hd pre v rest hdirs hpre

/-- Claim C10 on the directories `D1`, `D2`: with `x.ace` in `D2` only `readFile` returns the
content from `D2`, and with `x.ace` in both it returns the content from `D1`; the file has
the logical path `x`. -/
theorem readFile_first_success_witness :
    (readFile sampleCode onlyD2Fs "x" twoDirOptions).1 = Except.ok ⟨"x", "two"⟩ ∧
    (readFile sampleCode bothFs "x" twoDirOptions).1 = Except.ok ⟨"x", "one"⟩ :=
  ⟨readFile_first_success sampleCode onlyD2Fs "x" twoDirOptions ["D1"] "D2" [] "two"
      (by decide) rfl
      (fun u hu x h => by
        rw [List.mem_singleton.mp hu] at h
        exact Except.noConfusion h)
      rfl,
    readFile_first_success sampleCode bothFs "x" twoDirOptions [] "D1" ["D2"] "one"
      (by decide) rfl (fun u hu => absurd hu (List.not_mem_nil u)) rfl⟩

/-! ## Uniqueness of the includes in every reachable state -/

/-- Every outcome of `readFiles` keeps the include paths of the cached sources distinct. -/
theorem readFiles_cache_unique {R T : Type} (c : Code R T)
    (fs : String → Except Err String) (fuel : Nat) (basePath innerPath : String)
    (opts : Options) (w w2 : World T) (r : Except Err source) (l : List Event)
    (hw : ∀ k s, getSourceCache w k = some s → (paths s.includes).Nodup)
    (h : readFiles c fs fuel basePath innerPath opts w = some (r, w2, l)) :
    ∀ k s, getSourceCache w2 k = some s → (paths s.includes).Nodup := by
  cases r with
  | ok src => exact (readFiles_unique_inv c fs fuel basePath innerPath opts w w2 src l hw h).2
  | error e =>
    rcases readFiles_world c fs fuel basePath innerPath opts w w2 _ l h with e1 | ⟨src, e2, _⟩
    · rw [e1]; exact hw
    · cases e2

/-- Every outcome of `Load` keeps the include paths of the cached sources distinct. -/
theorem Load_cache_unique {R T : Type} (c : Code R T)
    (fs : String → Except Err String) (fuel : Nat) (basePath innerPath : String)
    (opts : Option Options) (w w1 : World T) (r : Except Err T) (l : List Event)
    (hw : ∀ k s, getSourceCache w k = some s → (paths s.includes).Nodup)
    (h : Load c fs fuel basePath innerPath opts w = some (r, w1, l)) :
    ∀ k s, getSourceCache w1 k = some s → (paths s.includes).Nodup := by
  rcases Load_cases c fs fuel basePath innerPath opts w _ h with ⟨tpl, _, _, ho⟩ | hm
  · simp only [Prod.mk.injEq] at ho
    rw [ho.2.1]; exact hw
  · rcases LoadMiss_cases c fs fuel basePath innerPath _ w w1 _ l hm with
      ⟨e, hr, _⟩ | ⟨src, v, l2, hr, ⟨e, _, _, hv, _⟩ | ⟨rslt, _, _, ⟨e, _, _, hv⟩ |
        ⟨tpl, _, _, hv⟩⟩⟩
    · exact readFiles_cache_unique c fs fuel basePath innerPath _ w w1 _ l hw hr
    · rw [hv]; exact readFiles_cache_unique c fs fuel basePath innerPath _ w v _ l2 hw hr
    · rw [hv]; exact readFiles_cache_unique c fs fuel basePath innerPath _ w v _ l2 hw hr
    · have hv2 := readFiles_cache_unique c fs fuel basePath innerPath _ w v _ l2 hw hr
      rw [hv]
      split
      · exact hv2
      · exact hv2

/-- In every reachable state the cached sources have pairwise distinct include paths. -/
theorem Reachable.cache_unique {R T : Type} {c : Code R T} {w : World T}
    (hw : Reachable c w) : ∀ k s, getSourceCache w k = some s → (paths s.includes).Nodup := by
  induction hw with
  | start => intro k s hk; cases hk
  | load fs fuel basePath innerPath opts r l _ h ih =>
    exact Load_cache_unique c fs fuel basePath innerPath opts _ _ r l ih h
  | flushTemplate _ ih => exact ih
  | flushSource _ ih => intro k s hk; cases hk

/-- Claim C1. In every state of the caches that the package can reach, for every base path,
inner path, options and filesystem: when `readFiles` succeeds, no two files of the returned
`includes` have the same path (the paths of the includes are pairwise distinct). This covers
the includes found via the base file together with those found via the inner file, and the
source returned from the source cache. -/
theorem readFiles_includes_unique {R T : Type} (c : Code R T)
    (fs : String → Except Err String) (fuel : Nat) (basePath innerPath : String)
    (opts : Options) (w w2 : World T) (src : source) (l : List Event)
    (hw : Reachable c w)
    (h : readFiles c fs fuel basePath innerPath opts w = some (Except.ok src, w2, l)) :
    (paths src.includes).Nodup :=
  (readFiles_unique_inv c fs fuel basePath innerPath opts w w2 src l hw.cache_unique h).1

/-- Claim C1 on the cycle `a` includes `b`, `b` includes `a`: loading `a` gives the includes
`b`, `a`, each once. -/
theorem readFiles_includes_unique_witness :
    (paths [(⟨"b", "include = a"⟩ : File), ⟨"a", "include = b"⟩]).Nodup :=
  readFiles_includes_unique sampleCode cycleFs 3 "a" "" (sampleOptions false true)
    emptyWorld emptyWorld
    ⟨⟨"a", "include = b"⟩, ⟨"", ""⟩, [⟨"b", "include = a"⟩, ⟨"a", "include = b"⟩]⟩
    [Event.readFile "a", Event.osRead "a.ace", Event.readFile "", Event.findIncludes "a",
      Event.readFile "b", Event.osRead "b.ace", Event.findIncludes "b", Event.readFile "a",
      Event.osRead "a.ace", Event.findIncludes "a", Event.findIncludes ""]
    Reachable.start rfl

/-! ## Missing files -/

theorem readFileLoop_all_fail {R T : Type} (c : Code R T)
    (fs : String → Except Err String) (path : String) (opts : Options)
    (last : String) (e : Err)
    (hl : (readCandidate fs opts (candidate c path opts last)).1 = Except.error e)
    (rest : List String) (v : String) (pre : List String)
    (hdirs : v :: rest = pre ++ [last])
    (hpre : ∀ u ∈ pre, ∀ x, (readCandidate fs opts (candidate c path opts u)).1 ≠ Except.ok x) :
    (readFileLoop c fs path opts v rest).1 = Except.error e := by
  induction rest generalizing v pre with
  | nil =>
    have hv : v = last := by
      cases pre with
      | nil => simpa using hdirs
      | cons u pre2 =>
        simp only [List.cons_append, List.cons.injEq] at hdirs
        cases pre2 <;> simp at hdirs
    subst hv
    unfold candidate at hl
    rcases hrc : readCandidate fs opts (c.Join v (path ++ dot ++ opts.Extension)) with ⟨r, l⟩
    rw [hrc] at hl
    simp only at hl
    subst hl
    simp [readFileLoop, hrc]
  | cons v2 rest ih =>
    cases pre with
    | nil => simp at hdirs
    | cons u pre2 =>
      simp only [List.cons_append, List.cons.injEq] at hdirs
      obtain ⟨hv, hrest⟩ := hdirs
      subst hv
      have hu := hpre v (List.mem_cons_self _ _)
      unfold candidate at hu
      rcases hrc : readCandidate fs opts (c.Join v (path ++ dot ++ opts.Extension)) with ⟨r, l⟩
      rw [hrc] at hu
      simp only at hu
      cases r with
      | ok x => exact absurd rfl (hu x)
      | error e2 =>
        have := ih v2 pre2 hrest (fun u2 hu2 => hpre u2 (List.mem_cons_of_mem _ hu2))
        unfold readFileLoop
        rw [hrc]
        simp only
        exact this

/-- When every candidate fails, `readFile` returns the failure of the last candidate. -/
theorem readFile_all_fail {R T : Type} (c : Code R T) (fs : String → Except Err String)
    (path : String) (opts : Options) (pre : List String) (last : String) (e : Err)
    (hpath : path ≠ "") (hdirs : dirsOf opts = pre ++ [last])
    (hpre : ∀ u ∈ pre, ∀ x, (readCandidate fs opts (candidate c path opts u)).1 ≠ Except.ok x)
    (hl : (readCandidate fs opts (candidate c path opts last)).1 = Except.error e) :
    (readFile c fs path opts).1 = Except.error e := by
  unfold readFile
  rw [if_pos (string_length_pos_of_ne path hpath)]
  unfold dirsOf at hdirs
  cases hb : opts.BaseDirs with
  | nil =>
    rw [hb] at hdirs
    simp only [List.length_nil, if_true] at hdirs
    exact readFileLoop_all_fail c fs path opts last e hl [] "" pre hdirs hpre
  | cons v rest =>
    rw [hb] at hdirs
    simp only [List.length_cons, Nat.succ_ne_zero, if_false] at hdirs
    exact readFileLoop_all_fail c fs path opts last e hl rest v pre hdirs hpre

theorem findIncludesLoop_failed_read (descend : String → List File → File → Found)
    (read : String → Except Err File × List Event)
    (hd : ∀ d i t r l, descend d i t = some (r, l) →
      ∀ p ∈ readPaths l, ∀ e, (read p).1 = Except.error e → r = Except.error e)
    (hr : ∀ p, readPaths (read p).2 = [p])
    (ps : List String) (includes : List File) (r : Except Err (List File)) (l : List Event)
    (h : findIncludesLoop descend read ps includes = some (r, l)) :
    ∀ p ∈ readPaths l, ∀ e, (read p).1 = Except.error e → r = Except.error e := by
  induction ps generalizing includes r l with
  | nil =>
    simp only [findIncludesLoop, Option.some.injEq, Prod.mk.injEq] at h
    rw [← h.2]
    intro p hp
    cases hp
  | cons q ps ih =>
    unfold findIncludesLoop at h
    by_cases hq : hasFile includes q = true
    · rw [if_pos hq] at h
      exact ih includes r l h
    · rw [if_neg hq] at h
      have hr1 := hr q
      rcases hrd : read q with ⟨rf, l1⟩
      rw [hrd] at h hr1
      simp only at hr1
      cases rf with
      | error e0 =>
        simp only [Option.some.injEq, Prod.mk.injEq] at h
        rw [← h.2, ← h.1, hr1]
        intro p hp e he
        rw [List.mem_singleton.mp hp, hrd] at he
        simpa using he
      | ok f =>
        have hqok : ∀ e, (read q).1 ≠ Except.error e := by
          intro e he
          rw [hrd] at he
          cases he
        simp only at h
        rcases hdd : descend f.data (includes ++ [f]) f with _ | ⟨r2, l2⟩
        · rw [hdd] at h; cases h
        · rw [hdd] at h
          have hS := hd _ _ _ _ _ hdd
          cases r2 with
          | error e2 =>
            simp only [Option.some.injEq, Prod.mk.injEq] at h
            rw [← h.2, ← h.1, readPaths_append, hr1]
            intro p hp e he
            rcases List.mem_append.mp hp with hp | hp
            · rw [List.mem_singleton.mp hp] at he
              exact absurd he (hqok e)
            · exact hS p hp e he
          | ok inc2 =>
            simp only at h
            rcases hll : findIncludesLoop descend read ps inc2 with _ | ⟨r3, l3⟩
            · rw [hll] at h; cases h
            · rw [hll] at h
              simp only [Option.some.injEq, Prod.mk.injEq] at h
              rw [← h.2, ← h.1, readPaths_append, readPaths_append, hr1]
              intro p hp e he
              rcases List.mem_append.mp hp with hp | hp
              · rcases List.mem_append.mp hp with hp | hp
                · rw [List.mem_singleton.mp hp] at he
                  exact absurd he (hqok e)
                · cases hS p hp e he
              · exact ih inc2 r3 l3 hll p hp e he

/-- A read that fails during `findIncludes` is the error `findIncludes` returns. -/
theorem findIncludes_failed_read {R T : Type} (c : Code R T) (fs : String → Except Err String)
    (opts : Options) (fuel : Nat) (data : String) (includes : List File) (targetFile : File)
    (r : Except Err (List File)) (l : List Event)
    (h : findIncludes c fs opts fuel data includes targetFile = some (r, l)) :
    ∀ p ∈ readPaths l, ∀ e, (readFile c fs p opts).1 = Except.error e → r = Except.error e := by
  induction fuel generalizing data includes targetFile r l with
  | zero => simp [findIncludes] at h
  | succ n ih =>
    unfold findIncludes at h
    cases hps : findIncludePaths c data opts targetFile with
    | error e0 =>
      rw [hps] at h
      simp only [Option.some.injEq, Prod.mk.injEq] at h
      rw [← h.2]
      intro p hp
      cases hp
    | ok ps =>
      rw [hps] at h
      simp only at h
      rcases hll : findIncludesLoop (fun d i t => findIncludes c fs opts n d i t)
          (fun p => readFile c fs p opts) ps includes with _ | ⟨r3, l3⟩
      · rw [hll] at h; cases h
      · rw [hll] at h
        simp only [Option.some.injEq, Prod.mk.injEq] at h
        rw [← h.2, ← h.1]
        exact findIncludesLoop_failed_read _ (fun p => readFile c fs p opts)
          (fun d i t r l hh => ih d i t r l hh)
          (fun p => (readFile_log c fs p opts).1) ps includes r3 l3 hll

/-- A read that fails during `readFilesMiss` is the error `readFilesMiss` returns. -/
theorem readFilesMiss_failed_read {R T : Type} (c : Code R T)
    (fs : String → Except Err String) (fuel : Nat) (basePath innerPath : String)
    (opts : Options) (w w2 : World T) (r : Except Err source) (l : List Event)
    (h : readFilesMiss c fs fuel basePath innerPath opts w = some (r, w2, l)) :
    ∀ p ∈ readPaths l, ∀ e, (readFile c fs p opts).1 = Except.error e → r = Except.error e := by
  unfold readFilesMiss at h
  have hb1 := (readFile_log c fs basePath opts).1
  have hi1 := (readFile_log c fs innerPath opts).1
  rcases hb : readFile c fs basePath opts with ⟨rb, l1⟩
  rw [hb] at h hb1
  simp only at hb1
  cases rb with
  | error e0 =>
    simp only [Option.some.injEq, Prod.mk.injEq] at h
    rw [← h.2.2, ← h.1, hb1]
    intro p hp e he
    rw [List.mem_singleton.mp hp, hb] at he
    simpa using he
  | ok base =>
    have hbok : ∀ e, (readFile c fs basePath opts).1 ≠ Except.error e := by
      intro e he
      rw [hb] at he
      cases he
    rcases hi : readFile c fs innerPath opts with ⟨ri, l2⟩
    rw [hi] at h hi1
    simp only at hi1
    cases ri with
    | error e0 =>
      simp only [Option.some.injEq, Prod.mk.injEq] at h
      rw [← h.2.2, ← h.1, readPaths_append, hb1, hi1]
      intro p hp e he
      rcases List.mem_append.mp hp with hp | hp
      · rw [List.mem_singleton.mp hp] at he
        exact absurd he (hbok e)
      · rw [List.mem_singleton.mp hp, hi] at he
        simpa using he
    | ok inner =>
      have hiok : ∀ e, (readFile c fs innerPath opts).1 ≠ Except.error e := by
        intro e he
        rw [hi] at he
        cases he
      have hpre : ∀ p ∈ readPaths (l1 ++ l2), ∀ e,
          (readFile c fs p opts).1 ≠ Except.error e := by
        intro p hp e he
        rw [readPaths_append, hb1, hi1] at hp
        rcases List.mem_append.mp hp with hp | hp
        · rw [List.mem_singleton.mp hp] at he
          exact hbok e he
        · rw [List.mem_singleton.mp hp] at he
          exact hiok e he
      simp only at h
      rcases h3 : findIncludes c fs opts fuel base.data [] base with _ | ⟨r3, l3⟩
      · rw [h3] at h; cases h
      · rw [h3] at h
        have hS3 := findIncludes_failed_read c fs opts fuel _ _ _ _ _ h3
        cases r3 with
        | error e3 =>
          simp only [Option.some.injEq, Prod.mk.injEq] at h
          rw [← h.2.2, ← h.1]
          intro p hp e he
          rw [readPaths_append] at hp
          rcases List.mem_append.mp hp with hp | hp
          · exact absurd he (hpre p hp e)
          · have := hS3 p hp e he
            simp only [Except.error.injEq] at this
            rw [this]
        | ok includes1 =>
          simp only at h
          rcases h4 : findIncludes c fs opts fuel inner.data includes1 inner with _ | ⟨r4, l4⟩
          · rw [h4] at h; cases h
          · rw [h4] at h
            have hS4 := findIncludes_failed_read c fs opts fuel _ _ _ _ _ h4
            have hall : ∀ p ∈ readPaths (l1 ++ l2 ++ l3 ++ l4), ∀ e,
                (readFile c fs p opts).1 = Except.error e → r4 = Except.error e := by
              intro p hp e he
              rw [readPaths_append, readPaths_append] at hp
              rcases List.mem_append.mp hp with hp | hp
              · rcases List.mem_append.mp hp with hp | hp
                · exact absurd he (hpre p hp e)
                · cases hS3 p hp e he
              · exact hS4 p hp e he
            cases r4 with
            | error e4 =>
              simp only [Option.some.injEq, Prod.mk.injEq] at h
              rw [← h.2.2, ← h.1]
              intro p hp e he
              have := hall p hp e he
              simp only [Except.error.injEq] at this
              rw [this]
            | ok includes =>
              simp only at h
              intro p hp e he
              have hl : l = l1 ++ l2 ++ l3 ++ l4 := by
                split at h <;>
                · simp only [Option.some.injEq, Prod.mk.injEq] at h
                  exact h.2.2.symm
              rw [hl] at hp
              cases hall p hp e he

/-- A read that fails during `readFiles` is the error `readFiles` returns. -/
theorem readFiles_failed_read {R T : Type} (c : Code R T)
    (fs : String → Except Err String) (fuel : Nat) (basePath innerPath : String)
    (opts : Options) (w w2 : World T) (r : Except Err source) (l : List Event)
    (h : readFiles c fs fuel basePath innerPath opts w = some (r, w2, l)) :
    ∀ p ∈ readPaths l, ∀ e, (readFile c fs p opts).1 = Except.error e → r = Except.error e := by
  rcases readFiles_cases c fs fuel basePath innerPath opts w _ h with ⟨src, _, _, ho⟩ | hm
  · simp only [Prod.mk.injEq] at ho
    rw [ho.2.2]
    intro p hp
    cases hp
  · exact readFilesMiss_failed_read c fs fuel basePath innerPath opts w w2 r l hm

/-- A read that fails during `Load` is the error `Load` returns. -/
theorem Load_failed_read {R T : Type} (c : Code R T)
    (fs : String → Except Err String) (fuel : Nat) (basePath innerPath : String)
    (opts : Option Options) (w w1 : World T) (r : Except Err T) (l : List Event)
    (h : Load c fs fuel basePath innerPath opts w = some (r, w1, l)) :
    ∀ p ∈ readPaths l, ∀ e,
      (readFile c fs p (c.InitializeOptions opts)).1 = Except.error e → r = Except.error e := by
  rcases Load_cases c fs fuel basePath innerPath opts w _ h with ⟨tpl, _, _, ho⟩ | hm
  · simp only [Prod.mk.injEq] at ho
    rw [ho.2.2]
    intro p hp
    cases hp
  · have hok : ∀ (src : source) (v : World T) (l2 : List Event),
        readFiles c fs fuel basePath innerPath (c.InitializeOptions opts) w =
          some (Except.ok src, v, l2) →
        ∀ p ∈ readPaths l2, ∀ e,
          (readFile c fs p (c.InitializeOptions opts)).1 ≠ Except.error e := by
      intro src v l2 hr p hp e he
      cases readFiles_failed_read c fs fuel basePath innerPath _ w v _ l2 hr p hp e he
    rcases LoadMiss_cases c fs fuel basePath innerPath _ w w1 _ l hm with
      ⟨e0, hr, he0⟩ | ⟨src, v, l2, hr, ⟨e0, _, _, _, hl⟩ | ⟨rslt, _, hl, _⟩⟩
    · intro p hp e he
      rw [he0]
      have := readFiles_failed_read c fs fuel basePath innerPath _ w w1 _ l hr p hp e he
      simp only [Except.error.injEq] at this
      rw [this]
    · intro p hp e he
      rw [hl, readPaths_append] at hp
      rcases List.mem_append.mp hp with hp | hp
      · exact absurd he (hok src v l2 hr p hp e)
      · simp [readPaths] at hp
    · intro p hp e he
      rw [hl, readPaths_append] at hp
      rcases List.mem_append.mp hp with hp | hp
      · exact absurd he (hok src v l2 hr p hp e)
      · simp [readPaths] at hp

/-- The source `readFilesMiss` assembles is closed under inclusion. -/
theorem readFilesMiss_closed {R T : Type} (c : Code R T)
    (fs : String → Except Err String) (fuel : Nat) (basePath innerPath : String)
    (opts : Options) (w w2 : World T) (src : source) (l : List Event)
    (h : readFilesMiss c fs fuel basePath innerPath opts w = some (Except.ok src, w2, l)) :
    Closed c opts src := by
  obtain ⟨l1, l2, l3, l4, includes1, _, _, h3, h4, _, _⟩ :=
    readFilesMiss_ok c fs fuel basePath innerPath opts w w2 src l h
  obtain ⟨new1, a1, a2, a3⟩ := findIncludes_closed c fs opts fuel _ _ _ _ h3
  obtain ⟨new2, b1, b2, b3⟩ := findIncludes_closed c fs opts fuel _ _ _ _ h4
  refine ⟨?_, b2, ?_⟩
  · rw [b1]; exact a2.mono new2
  · intro f hf
    rw [b1] at hf
    rcases List.mem_append.mp hf with hf | hf
    · rw [b1]
      rw [a1, List.nil_append] at hf
      exact (a3 f hf).mono new2
    · exact b3 f hf

/-- Every file of the includes that `readFilesMiss` returns was passed to `readFile`. -/
theorem readFilesMiss_includes_read {R T : Type} (c : Code R T)
    (fs : String → Except Err String) (fuel : Nat) (basePath innerPath : String)
    (opts : Options) (w w2 : World T) (src : source) (l : List Event)
    (h : readFilesMiss c fs fuel basePath innerPath opts w = some (Except.ok src, w2, l)) :
    ∀ p ∈ paths src.includes, p ∈ readPaths l := by
  obtain ⟨l1, l2, l3, l4, includes1, _, _, h3, h4, hl, _⟩ :=
    readFilesMiss_ok c fs fuel basePath innerPath opts w w2 src l h
  obtain ⟨l3b, hl3, _, _, _, hD3⟩ := findIncludes_inv c fs opts fuel _ _ _ _ _ h3
  obtain ⟨l4b, hl4, _, _, _, hD4⟩ := findIncludes_inv c fs opts fuel _ _ _ _ _ h4
  obtain ⟨new1, hn1, hn2, _⟩ := hD3 includes1 rfl
  obtain ⟨new2, hm1, hm2, _⟩ := hD4 src.includes rfl
  intro p hp
  rw [hm1, hn1, List.nil_append, paths_append, hn2, hm2] at hp
  rw [hl, readPaths_append, readPaths_append, hl3, hl4]
  rcases List.mem_append.mp hp with hp | hp
  · exact List.mem_append_left _ (List.mem_append_right _ hp)
  · exact List.mem_append_right _ hp

theorem readFiles_eq_miss {R T : Type} (c : Code R T) (fs : String → Except Err String)
    (fuel : Nat) (basePath innerPath : String) (opts : Options) (w : World T)
    (hs : sourceMiss opts w basePath innerPath) :
    readFiles c fs fuel basePath innerPath opts w =
      readFilesMiss c fs fuel basePath innerPath opts w := by
  unfold readFiles
  simp only
  split
  · rename_i hf
    rw [hs (by simpa using hf)]
  · rfl

theorem Load_eq_miss {R T : Type} (c : Code R T) (fs : String → Except Err String)
    (fuel : Nat) (basePath innerPath : String) (opts : Option Options) (w : World T)
    (ht : templateMiss (c.InitializeOptions opts) w basePath innerPath) :
    Load c fs fuel basePath innerPath opts w =
      LoadMiss c fs fuel basePath innerPath (c.InitializeOptions opts) w := by
  unfold Load
  simp only
  split
  · rename_i hf
    rw [ht hf]
  · rfl

/-- When the base file, or after it the inner file, cannot be read, `readFilesMiss` returns
that error, whatever the fuel, and leaves the caches alone. -/
theorem readFilesMiss_missing {R T : Type} (c : Code R T) (fs : String → Except Err String)
    (fuel : Nat) (basePath innerPath : String) (opts : Options) (w : World T) (e : Err)
    (h : (readFile c fs basePath opts).1 = Except.error e ∨
      ((∃ f, (readFile c fs basePath opts).1 = Except.ok f) ∧
        (readFile c fs innerPath opts).1 = Except.error e)) :
    ∃ l, readFilesMiss c fs fuel basePath innerPath opts w = some (Except.error e, w, l) := by
  unfold readFilesMiss
  rcases hb : readFile c fs basePath opts with ⟨rb, l1⟩
  rw [hb] at h
  cases rb with
  | error e0 =>
    rcases h with h | ⟨⟨f, hf⟩, _⟩
    · simp only [Except.error.injEq] at h
      subst h
      exact ⟨l1, rfl⟩
    · cases hf
  | ok base =>
    rcases h with h | ⟨_, h⟩
    · cases h
    · rcases hi : readFile c fs innerPath opts with ⟨ri, l2⟩
      rw [hi] at h
      simp only at h
      subst h
      exact ⟨l1 ++ l2, rfl⟩

/-- Claim C11. For a non-empty logical path, when no candidate read succeeds `readFile`
returns an error and no file, and the error is the failure of the last candidate tried; with
no base directory the only candidate is the one of the empty directory. A read that fails
during `readFiles` or `Load` is the error the call returns; a missing base file, or a missing
inner file after the base file was read, makes `readFiles` and `Load` return that error
(when the caches do not answer for the key); and a source is only returned when every
include path that its base file, its inner file or one of its includes declares could be
read. -/
theorem readFile_not_found {R T : Type} (c : Code R T) (fs : String → Except Err String) :
    (∀ path opts pre last e, path ≠ "" → dirsOf opts = pre ++ [last] →
      (∀ u ∈ pre, ∀ x, (readCandidate fs opts (candidate c path opts u)).1 ≠ Except.ok x) →
      (readCandidate fs opts (candidate c path opts last)).1 = Except.error e →
      (readFile c fs path opts).1 = Except.error e) ∧
    (∀ path opts, path ≠ "" →
      (∀ u ∈ dirsOf opts, ∀ x,
        (readCandidate fs opts (candidate c path opts u)).1 ≠ Except.ok x) →
      ∃ e, (readFile c fs path opts).1 = Except.error e) ∧
    (∀ fuel basePath innerPath opts (w w2 : World T) r l,
      readFiles c fs fuel basePath innerPath opts w = some (r, w2, l) →
      ∀ p ∈ readPaths l, ∀ e, (readFile c fs p opts).1 = Except.error e →
        r = Except.error e) ∧
    (∀ fuel basePath innerPath opts (w w1 : World T) r l,
      Load c fs fuel basePath innerPath opts w = some (r, w1, l) →
      ∀ p ∈ readPaths l, ∀ e,
        (readFile c fs p (c.InitializeOptions opts)).1 = Except.error e →
        r = Except.error e) ∧
    (∀ fuel basePath innerPath opts (w : World T) e,
      sourceMiss opts w basePath innerPath →
      ((readFile c fs basePath opts).1 = Except.error e ∨
        ((∃ f, (readFile c fs basePath opts).1 = Except.ok f) ∧
          (readFile c fs innerPath opts).1 = Except.error e)) →
      ∃ l, readFiles c fs fuel basePath innerPath opts w = some (Except.error e, w, l)) ∧
    (∀ fuel basePath innerPath opts (w : World T) e,
      templateMiss (c.InitializeOptions opts) w basePath innerPath →
      sourceMiss (c.InitializeOptions opts) w basePath innerPath →
      ((readFile c fs basePath (c.InitializeOptions opts)).1 = Except.error e ∨
        ((∃ f, (readFile c fs basePath (c.InitializeOptions opts)).1 = Except.ok f) ∧
          (readFile c fs innerPath (c.InitializeOptions opts)).1 = Except.error e)) →
      ∃ l, Load c fs fuel basePath innerPath opts w = some (Except.error e, w, l)) ∧
    (∀ fuel basePath innerPath opts (w w2 : World T) src l,
      sourceMiss opts w basePath innerPath →
      readFiles c fs fuel basePath innerPath opts w = some (Except.ok src, w2, l) →
      ∀ f, f = src.base ∨ f = src.inner ∨ f ∈ src.includes →
        ∃ ps, findIncludePaths c f.data opts f = Except.ok ps ∧
          ∀ p ∈ ps, ∃ g, (readFile c fs p opts).1 = Except.ok g) := by
  refine ⟨?_, ?_, ?_, ?_, ?_, ?_, ?_⟩
  · intro path opts pre last e hpath hdirs hpre hl
    exact readFile_all_fail c fs path opts pre last e hpath hdirs hpre hl
  · intro path opts hpath hall
    have hne : dirsOf opts ≠ [] := by
      unfold dirsOf
      split
      · simp
      · rename_i hlen
        intro hnil
        exact hlen (by rw [hnil]; rfl)
    obtain ⟨pre, last, hd⟩ : ∃ pre last, dirsOf opts = pre ++ [last] :=
      ⟨(dirsOf opts).dropLast, (dirsOf opts).getLast hne,
        (List.dropLast_append_getLast hne).symm⟩
    have hlast : last ∈ dirsOf opts := by rw [hd]; simp
    cases hc : (readCandidate fs opts (candidate c path opts last)).1 with
    | ok x => exact absurd hc (hall last hlast x)
    | error e =>
      refine ⟨e, readFile_all_fail c fs path opts pre last e hpath hd ?_ hc⟩
      intro u hu
      exact hall u (by rw [hd]; exact List.mem_append_left _ hu)
  · intro fuel basePath innerPath opts w w2 r l h
    exact readFiles_failed_read c fs fuel basePath innerPath opts w w2 r l h
  · intro fuel basePath innerPath opts w w1 r l h
    exact Load_failed_read c fs fuel basePath innerPath opts w w1 r l h
  · intro fuel basePath innerPath opts w e hs h
    rw [readFiles_eq_miss c fs fuel basePath innerPath opts w hs]
    exact readFilesMiss_missing c fs fuel basePath innerPath opts w e h
  · intro fuel basePath innerPath opts w e ht hs h
    rw [Load_eq_miss c fs fuel basePath innerPath opts w ht]
    obtain ⟨l, hl⟩ := readFilesMiss_missing c fs fuel basePath innerPath _ w e h
    refine ⟨l, ?_⟩
    unfold LoadMiss
    simp only
    rw [readFiles_eq_miss c fs fuel basePath innerPath _ w hs, hl]
  · intro fuel basePath innerPath opts w w2 src l hs h f hf
    rw [readFiles_eq_miss c fs fuel basePath innerPath opts w hs] at h
    obtain ⟨hcb, hci, hcs⟩ := readFilesMiss_closed c fs fuel basePath innerPath opts w w2 src l h
    have hd : Declared c opts f src.includes := by
      rcases hf with rfl | rfl | hf
      · exact hcb
      · exact hci
      · exact hcs f hf
    obtain ⟨ps, hps, hin⟩ := hd
    refine ⟨ps, hps, ?_⟩
    intro p hp
    have hread := readFilesMiss_includes_read c fs fuel basePath innerPath opts w w2 src l h p
      (hin p hp)
    cases hr : (readFile c fs p opts).1 with
    | ok g => exact ⟨g, rfl⟩
    | error e =>
      cases readFilesMiss_failed_read c fs fuel basePath innerPath opts w w2 _ l h p hread e hr

/-- Claim C11 with no base directory and no file: the one candidate `a.ace` fails and
`readFile` returns its error; and `Load` of `a`, whose include `zz` is missing, returns the
error of reading `zz`. -/
theorem readFile_not_found_witness :
    (readFile sampleCode noFs "a" (sampleOptions false false)).1 =
      Except.error "no such file" ∧
    (Load sampleCode danglingFs 3 "a" "" (some (sampleOptions false true)) emptyWorld).map
        (fun out => (out.1, readPaths out.2.2)) =
      some (Except.error "no such file", ["a", "", "zz"]) :=
  ⟨(readFile_not_found (T := String) sampleCode noFs).1 "a" (sampleOptions false false) [] ""
      "no such file" (by decide) rfl (fun u hu => absurd hu (List.not_mem_nil u)) rfl,
    rfl⟩

/-! ## Line endings -/

theorem lf_ne_cr : lf ≠ cr := by decide

theorem replaceCR_no_cr (l : List Char) : cr ∉ replaceCR l := by
  induction l with
  | nil => simp [replaceCR]
  | cons c rest ih =>
    unfold replaceCR
    intro h
    rcases List.mem_cons.mp h with h | h
    · by_cases hc : c = cr
      · rw [if_pos hc] at h
        exact lf_ne_cr h.symm
      · rw [if_neg hc] at h
        exact hc h.symm
    · exact ih h

theorem replaceCR_id (l : List Char) (h : cr ∉ l) : replaceCR l = l := by
  induction l with
  | nil => rfl
  | cons c rest ih =>
    have hc : c ≠ cr := fun e => h (e ▸ List.mem_cons_self _ _)
    have hr : cr ∉ rest := fun e => h (List.mem_cons_of_mem _ e)
    unfold replaceCR
    rw [if_neg hc, ih hr]

theorem replaceCRLF_id (l : List Char) (h : cr ∉ l) : replaceCRLF l = l := by
  induction l with
  | nil => rfl
  | cons c rest ih =>
    have hc : c ≠ cr := fun e => h (e ▸ List.mem_cons_self _ _)
    have hr : cr ∉ rest := fun e => h (List.mem_cons_of_mem _ e)
    cases rest with
    | nil => rfl
    | cons d rest2 =>
      unfold replaceCRLF
      rw [if_neg (fun hcd => hc hcd.1), ih hr]

/-- The result of `formatLF` has no carriage return. -/
theorem formatLF_no_cr (s : String) : cr ∉ (formatLF s).data := by
  unfold formatLF
  exact replaceCR_no_cr _

/-- A string with no carriage return is left as it is by `formatLF`. -/
theorem formatLF_id (s : String) (h : cr ∉ s.data) : formatLF s = s := by
  unfold formatLF
  rw [replaceCRLF_id _ h, replaceCR_id _ h]

/-- Normalising twice is normalising once. -/
theorem formatLF_idem (s : String) : formatLF (formatLF s) = formatLF s :=
  formatLF_id _ (formatLF_no_cr s)

/-- Claim C20. `formatLF` replaces the line feed codes with LF: for every string `s` the
result contains no carriage return, the result is `s` itself when `s` contains no carriage
return, and `formatLF` is idempotent. -/
theorem formatLF_spec (s : String) :
    cr ∉ (formatLF s).data ∧ (cr ∉ s.data → formatLF s = s) ∧
    formatLF (formatLF s) = formatLF s :=
  ⟨formatLF_no_cr s, formatLF_id s, formatLF_idem s⟩

/-- Claim C20 on a text with a CRLF, a lone CR and an LF: all three become LF, and a second
pass changes nothing. -/
theorem formatLF_spec_witness :
    formatLF "a\r\nb\rc\nd" = "a\nb\nc\nd" ∧ formatLF "a\nb\nc\nd" = "a\nb\nc\nd" :=
  ⟨by decide, (formatLF_spec "a\nb\nc\nd").2.1 (by decide)⟩

theorem formatLF_eq_allLF (l : List Char) : replaceCR (replaceCRLF l) = allLF l := by
  induction l using replaceCRLF.induct with
  | case1 => rfl
  | case2 c => rfl
  | case3 c d rest h ih =>
    rw [replaceCRLF, if_pos h, allLF, if_pos h.1, if_pos h.2, replaceCR, if_neg lf_ne_cr, ih]
  | case4 c d rest h ih =>
    rw [replaceCRLF, if_neg h, replaceCR, ih, allLF]
    by_cases hc : c = cr
    · have hd : ¬ d = lf := fun hd => h ⟨hc, hd⟩
      rw [if_pos hc, if_pos hc, if_neg hd]
    · rw [if_neg hc, if_neg hc]

/-- Claim C13. Include discovery does not depend on the line endings: for every content `s`
(and every originating file and options) `findIncludePaths` returns for `s` what it returns
for the all-LF version of `s`, in which every CRLF and every remaining lone CR is replaced
by one LF: the same include paths in the same order, or the same error. -/
theorem findIncludePaths_allLF {R T : Type} (c : Code R T) (s : String) (opts : Options)
    (f : File) :
    findIncludePaths c s opts f = findIncludePaths c (String.mk (allLF s.data)) opts f := by
  have h : String.mk (allLF s.data) = formatLF s := by
    unfold formatLF
    rw [formatLF_eq_allLF]
  rw [h]
  unfold findIncludePaths
  rw [formatLF_idem]

/-! ## Include directives -/

theorem findIncludePathsLoop_ok {R T : Type} (c : Code R T) (opts : Options) (f : File)
    (lines : List String) (i : Nat) (acc : List String)
    (h : ∀ x ∈ lines.enumFrom i, shortInclude c (lineAt c opts f x.1 x.2) = false) :
    findIncludePathsLoop c opts f i lines acc =
      Except.ok (acc ++ thirdTokens c opts f i lines) := by
  induction lines generalizing i acc with
  | nil => simp [findIncludePathsLoop, thirdTokens]
  | cons str rest ih =>
    have hrest : ∀ x ∈ rest.enumFrom (i + 1),
        shortInclude c (lineAt c opts f x.1 x.2) = false := by
      intro x hx
      exact h x (by rw [List.enumFrom_cons]; exact List.mem_cons_of_mem _ hx)
    have hhead : shortInclude c (lineAt c opts f i str) = false :=
      h (i, str) (by rw [List.enumFrom_cons]; exact List.mem_cons_self _ _)
    unfold findIncludePathsLoop
    simp only
    by_cases hinc : c.isHelperMethodOf (c.newLine (i + 1) str opts f)
        c.helperMethodNameInclude = true
    · have hlen : ¬ (c.newLine (i + 1) str opts f).tokens.length < 3 := by
        intro hlt
        simp [shortInclude, isIncludeLine, lineAt, hinc, hlt] at hhead
      rw [if_pos hinc, if_neg hlen, ih (i + 1) _ hrest]
      simp [thirdTokens, List.enumFrom_cons, lineAt, isIncludeLine, hinc]
    · rw [if_neg hinc, ih (i + 1) _ hrest]
      simp [thirdTokens, List.enumFrom_cons, lineAt, isIncludeLine, hinc]

theorem findIncludePathsLoop_err {R T : Type} (c : Code R T) (opts : Options) (f : File)
    (pre : List String) (str : String) (post : List String) (i : Nat) (acc : List String)
    (hpre : ∀ x ∈ pre.enumFrom i, shortInclude c (lineAt c opts f x.1 x.2) = false)
    (hbad : shortInclude c (lineAt c opts f (i + pre.length) str) = true) :
    findIncludePathsLoop c opts f i (pre ++ str :: post) acc =
      Except.error (noTemplateNameErr (c.fileName (lineAt c opts f (i + pre.length) str))
        (lineAt c opts f (i + pre.length) str).no) := by
  induction pre generalizing i acc with
  | nil =>
    simp only [List.length_nil, Nat.add_zero] at hbad ⊢
    simp only [shortInclude, isIncludeLine, lineAt, Bool.and_eq_true, decide_eq_true_eq] at hbad
    simp only [List.nil_append]
    unfold findIncludePathsLoop
    simp only
    rw [if_pos hbad.1, if_pos hbad.2]
    rfl
  | cons s0 pre ih =>
    have hrest : ∀ x ∈ pre.enumFrom (i + 1),
        shortInclude c (lineAt c opts f x.1 x.2) = false := by
      intro x hx
      exact hpre x (by rw [List.enumFrom_cons]; exact List.mem_cons_of_mem _ hx)
    have hhead : shortInclude c (lineAt c opts f i s0) = false :=
      hpre (i, s0) (by rw [List.enumFrom_cons]; exact List.mem_cons_self _ _)
    have hidx : i + (s0 :: pre).length = i + 1 + pre.length := by
      simp only [List.length_cons]; omega
    rw [hidx] at hbad ⊢
    simp only [List.cons_append]
    unfold findIncludePathsLoop
    simp only
    by_cases hinc : c.isHelperMethodOf (c.newLine (i + 1) s0 opts f)
        c.helperMethodNameInclude = true
    · have hlen : ¬ (c.newLine (i + 1) s0 opts f).tokens.length < 3 := by
        intro hlt
        simp [shortInclude, isIncludeLine, lineAt, hinc, hlt] at hhead
      rw [if_pos hinc, if_neg hlen]
      exact ih (i + 1) _ hrest hbad
    · rw [if_neg hinc]
      exact ih (i + 1) _ hrest hbad

/-- Among lines of which one is a short include directive there is a first one. -/
theorem first_shortInclude {R T : Type} (c : Code R T) (opts : Options) (f : File)
    (lines : List String) (i : Nat)
    (h : ∃ x ∈ lines.enumFrom i, shortInclude c (lineAt c opts f x.1 x.2) = true) :
    ∃ pre str post, lines = pre ++ str :: post ∧
      (∀ x ∈ pre.enumFrom i, shortInclude c (lineAt c opts f x.1 x.2) = false) ∧
      shortInclude c (lineAt c opts f (i + pre.length) str) = true := by
  induction lines generalizing i with
  | nil =>
    obtain ⟨x, hx, _⟩ := h
    simp at hx
  | cons s0 rest ih =>
    by_cases h0 : shortInclude c (lineAt c opts f i s0) = true
    · exact ⟨[], s0, rest, rfl, by simp, by simpa using h0⟩
    · have hrest : ∃ x ∈ rest.enumFrom (i + 1),
          shortInclude c (lineAt c opts f x.1 x.2) = true := by
        obtain ⟨x, hx, hb⟩ := h
        rw [List.enumFrom_cons] at hx
        rcases List.mem_cons.mp hx with rfl | hx
        · exact absurd hb h0
        · exact ⟨x, hx, hb⟩
      obtain ⟨pre, str, post, e1, e2, e3⟩ := ih (i + 1) hrest
      refine ⟨s0 :: pre, str, post, by rw [e1]; rfl, ?_, ?_⟩
      · intro x hx
        rw [List.enumFrom_cons] at hx
        rcases List.mem_cons.mp hx with rfl | hx
        · simpa using h0
        · exact e2 x hx
      · have hidx : i + (s0 :: pre).length = i + 1 + pre.length := by
          simp only [List.length_cons]; omega
        rw [hidx]
        exact e3

/-- Claim C12. When the LF-normalised content has a line that is an include directive with
fewer than three tokens, `findIncludePaths` returns an error and no path list: there is a
first such line, at the 0-based index `pre.length`, and the error is the message built from
the file name and the number of the line that `newLine` made for the originating file with
the 1-based number `pre.length + 1` (which is the number in the message when `newLine` stores
the number it is given). When every include directive has at least three tokens,
`findIncludePaths` returns no error and the third tokens of the include directives in line
order. -/
theorem findIncludePaths_short_include {R T : Type} (c : Code R T) (data : String)
    (opts : Options) (f : File) :
    ((∃ x ∈ (linesOf data).enumFrom 0, shortInclude c (lineAt c opts f x.1 x.2) = true) →
      ∃ pre str post, linesOf data = pre ++ str :: post ∧
        (∀ x ∈ pre.enumFrom 0, shortInclude c (lineAt c opts f x.1 x.2) = false) ∧
        shortInclude c (lineAt c opts f pre.length str) = true ∧
        findIncludePaths c data opts f =
          Except.error (noTemplateNameErr (c.fileName (lineAt c opts f pre.length str))
            (lineAt c opts f pre.length str).no) ∧
        ((∀ no s o g, (c.newLine no s o g).no = no) →
          findIncludePaths c data opts f =
            Except.error (noTemplateNameErr (c.fileName (lineAt c opts f pre.length str))
              (pre.length + 1)))) ∧
    ((∀ x ∈ (linesOf data).enumFrom 0, shortInclude c (lineAt c opts f x.1 x.2) = false) →
      findIncludePaths c data opts f = Except.ok (thirdTokens c opts f 0 (linesOf data))) := by
  constructor
  · intro h
    obtain ⟨pre, str, post, e1, e2, e3⟩ := first_shortInclude c opts f (linesOf data) 0 h
    rw [Nat.zero_add] at e3
    have herr : findIncludePaths c data opts f =
        Except.error (noTemplateNameErr (c.fileName (lineAt c opts f pre.length str))
          (lineAt c opts f pre.length str).no) := by
      have := findIncludePathsLoop_err c opts f pre str post 0 [] e2
        (by rw [Nat.zero_add]; exact e3)
      rw [Nat.zero_add] at this
      unfold findIncludePaths
      unfold linesOf at e1
      rw [e1]
      exact this
    refine ⟨pre, str, post, e1, e2, e3, herr, ?_⟩
    intro hno
    rw [herr]
    unfold lineAt
    rw [hno]
  · intro h
    have := findIncludePathsLoop_ok c opts f (linesOf data) 0 [] h
    rw [List.nil_append] at this
    exact this

/-- Claim C12 on a file `a`: the content whose second line is `include =` gives the error
for line 2 of file `a`, and a content with two complete directives gives their names in
order. -/
theorem findIncludePaths_short_include_witness :
    (∃ e, findIncludePaths sampleCode "include = b\r\ninclude =" (sampleOptions false false)
        ⟨"a", "include = b\r\ninclude ="⟩ = Except.error e) ∧
    findIncludePaths sampleCode "include = b\r\ninclude =" (sampleOptions false false)
        ⟨"a", "include = b\r\ninclude ="⟩ =
      Except.error "no template name is specified [file: a][line: 2]" ∧
    findIncludePaths sampleCode "include = b\r\ninclude = c" (sampleOptions false false)
        ⟨"a", "include = b\r\ninclude = c"⟩ = Except.ok ["b", "c"] := by
  refine ⟨?_, rfl, ?_⟩
  · obtain ⟨pre, str, post, _, _, _, h, _⟩ :=
      (findIncludePaths_short_include sampleCode "include = b\r\ninclude ="
        (sampleOptions false false) ⟨"a", "include = b\r\ninclude ="⟩).1
        ⟨(1, "include ="), by decide, rfl⟩
    exact ⟨_, h⟩
  · exact (findIncludePaths_short_include sampleCode "include = b\r\ninclude = c"
      (sampleOptions false false) ⟨"a", "include = b\r\ninclude = c"⟩).2 (by decide)

/-! ## The composite key -/

theorem colon_split_left (a1 b1 a2 b2 : List Char)
    (h1 : ':' ∉ a1) (h2 : ':' ∉ a2) (h : a1 ++ ':' :: b1 = a2 ++ ':' :: b2) :
    a1 = a2 ∧ b1 = b2 := by
  induction a1 generalizing a2 with
  | nil =>
    cases a2 with
    | nil => simpa using h
    | cons y a2 =>
      simp only [List.nil_append, List.cons_append, List.cons.injEq] at h
      exact absurd (h.1 ▸ List.mem_cons_self _ _) h2
  | cons x a1 ih =>
    cases a2 with
    | nil =>
      simp only [List.nil_append, List.cons_append, List.cons.injEq] at h
      exact absurd (h.1 ▸ List.mem_cons_self _ _) h1
    | cons y a2 =>
      simp only [List.cons_append, List.cons.injEq] at h
      obtain ⟨e1, e2⟩ := ih a2 (fun hm => h1 (List.mem_cons_of_mem _ hm))
        (fun hm => h2 (List.mem_cons_of_mem _ hm)) h.2
      exact ⟨by rw [h.1, e1], e2⟩

theorem colon_split_right (a1 b1 a2 b2 : List Char)
    (h1 : ':' ∉ b1) (h2 : ':' ∉ b2) (h : a1 ++ ':' :: b1 = a2 ++ ':' :: b2) :
    a1 = a2 ∧ b1 = b2 := by
  have hr : b1.reverse ++ ':' :: a1.reverse = b2.reverse ++ ':' :: a2.reverse := by
    have := congrArg List.reverse h
    simpa using this
  obtain ⟨e1, e2⟩ := colon_split_left _ _ _ _ (by simpa using h1) (by simpa using h2) hr
  exact ⟨List.reverse_injective e2, List.reverse_injective e1⟩

theorem key_data (b i : String) : (b ++ colon ++ i).data = b.data ++ ':' :: i.data := by
  simp [String.data_append, colon]

/-- Claim C14, as amended. The composite key `basePath + ":" + innerPath` identifies the
pairing among pairings whose base paths contain no colon, and among pairings whose inner
paths contain no colon: for such pairings equal keys give equal base paths and equal inner
paths, so they never share a cache entry. -/
theorem key_injective_without_colon (b1 i1 b2 i2 : String)
    (hc : (':' ∉ b1.data ∧ ':' ∉ b2.data) ∨ (':' ∉ i1.data ∧ ':' ∉ i2.data))
    (h : b1 ++ colon ++ i1 = b2 ++ colon ++ i2) : b1 = b2 ∧ i1 = i2 := by
  have hd := congrArg String.data h
  rw [key_data, key_data] at hd
  rcases hc with ⟨h1, h2⟩ | ⟨h1, h2⟩
  · obtain ⟨e1, e2⟩ := colon_split_left _ _ _ _ h1 h2 hd
    exact ⟨String.ext e1, String.ext e2⟩
  · obtain ⟨e1, e2⟩ := colon_split_right _ _ _ _ h1 h2 hd
    exact ⟨String.ext e1, String.ext e2⟩

/-- Claim C14 as amended, on the keys of `layout` with `index`: equal keys, equal
pairings. -/
theorem key_injective_without_colon_witness : "layout" = "layout" ∧ "index" = "index" :=
  key_injective_without_colon "layout" "index" "layout" "index"
    (Or.inl ⟨by decide, by decide⟩) rfl

/-- Claim C14 as stated fails. The pairings (`a:b`, `c`) and (`a`, `b:c`) differ and have the
same key `a:b:c`, so a template cached for the first answers a `Load` of the second. -/
theorem key_collision :
    "a:b" ++ colon ++ "c" = "a" ++ colon ++ "b:c" ∧
    ¬ ("a:b" = "a" ∧ "c" = "b:c") ∧
    (Load sampleCode noFs 0 "a" "b:c" (some (sampleOptions true true))
        (setTemplateCache emptyWorld ("a:b" ++ colon ++ "c") "template of a:b and c")).map
        (fun out => out.1) =
      some (Except.ok "template of a:b and c") :=
  ⟨by decide, by decide, rfl⟩

/-! ## The empty path and the asset hook -/

/-- The events of `readFilesMiss` start with the read of the base file, and go on with the
read of the inner file when the base file was read. -/
theorem readFilesMiss_reads_inner {R T : Type} (c : Code R T)
    (fs : String → Except Err String) (fuel : Nat) (basePath innerPath : String)
    (opts : Options) (w w2 : World T) (r : Except Err source) (l : List Event) (base : File)
    (hb : (readFile c fs basePath opts).1 = Except.ok base)
    (h : readFilesMiss c fs fuel basePath innerPath opts w = some (r, w2, l)) :
    Event.readFile innerPath ∈ l := by
  rw [← mem_readPaths]
  unfold readFilesMiss at h
  have hi1 := (readFile_log c fs innerPath opts).1
  rcases hbb : readFile c fs basePath opts with ⟨rb, l1⟩
  rw [hbb] at h hb
  simp only at hb
  subst hb
  rcases hi : readFile c fs innerPath opts with ⟨ri, l2⟩
  rw [hi] at h hi1
  simp only at hi1
  have key : ∀ l3, innerPath ∈ readPaths (l1 ++ l2 ++ l3) := by
    intro l3
    rw [readPaths_append, readPaths_append, hi1]
    simp
  cases ri with
  | error e =>
    simp only [Option.some.injEq, Prod.mk.injEq] at h
    rw [← h.2.2]
    simpa using key []
  | ok inner =>
    simp only at h
    rcases h3 : findIncludes c fs opts fuel base.data [] base with _ | ⟨r3, l3⟩
    · rw [h3] at h; cases h
    · rw [h3] at h
      cases r3 with
      | error e =>
        simp only [Option.some.injEq, Prod.mk.injEq] at h
        rw [← h.2.2]
        exact key l3
      | ok includes1 =>
        simp only at h
        rcases h4 : findIncludes c fs opts fuel inner.data includes1 inner with _ | ⟨r4, l4⟩
        · rw [h4] at h; cases h
        · rw [h4] at h
          have hl : l = l1 ++ l2 ++ (l3 ++ l4) := by
            cases r4 with
            | error e =>
              simp only [Option.some.injEq, Prod.mk.injEq] at h
              rw [← h.2.2]; simp
            | ok includes =>
              simp only at h
              split at h <;>
              · simp only [Option.some.injEq, Prod.mk.injEq] at h
                rw [← h.2.2]; simp
          rw [hl]
          exact key (l3 ++ l4)

/-- Claim C15. For the empty logical path `readFile` succeeds with the file of empty path and
empty content, for every options value and every filesystem, and does nothing but be
called: the asset hook is not called and the filesystem is not read. Hence a `Load` with an
empty base path does not fail because of the base file: when it fails, it has gone on to
read the inner file, or it has read no file at all (the source came from the source cache
and `ParseSource` or `CompileResult` failed). -/
theorem readFile_empty_path {R T : Type} (c : Code R T) (fs : String → Except Err String)
    (opts : Options) :
    readFile c fs "" opts = (Except.ok ⟨"", ""⟩, [Event.readFile ""]) ∧
    ∀ fuel innerPath (o : Option Options) (w w1 : World T) e l,
      Load c fs fuel "" innerPath o w = some (Except.error e, w1, l) →
      readPaths l = [] ∨ Event.readFile innerPath ∈ l := by
  have h0 : ∀ o : Options, readFile c fs "" o = (Except.ok ⟨"", ""⟩, [Event.readFile ""]) := by
    intro o
    unfold readFile
    rw [if_neg (by decide)]
    rfl
  refine ⟨h0 opts, ?_⟩
  intro fuel innerPath o w w1 e l h
  have hmiss : ∀ (r : Except Err source) (v : World T) (l2 : List Event),
      readFiles c fs fuel "" innerPath (c.InitializeOptions o) w = some (r, v, l2) →
      l2 = [] ∨ Event.readFile innerPath ∈ l2 := by
    intro r v l2 hr
    rcases readFiles_cases c fs fuel "" innerPath _ w _ hr with ⟨src, _, _, ho⟩ | hm
    · simp only [Prod.mk.injEq] at ho
      exact Or.inl ho.2.2
    · exact Or.inr (readFilesMiss_reads_inner c fs fuel "" innerPath _ w v r l2 ⟨"", ""⟩
        (by rw [h0]) hm)
  rcases Load_cases c fs fuel "" innerPath o w _ h with ⟨tpl, _, _, ho⟩ | hm
  · simp only [Prod.mk.injEq] at ho
    cases ho.1
  · rcases LoadMiss_cases c fs fuel "" innerPath _ w w1 _ l hm with
      ⟨e0, hr, _⟩ | ⟨src, v, l2, hr, hrest⟩
    · rcases readFiles_cases c fs fuel "" innerPath _ w _ hr with ⟨src, _, _, ho⟩ | hm2
      · simp only [Prod.mk.injEq] at ho
        cases ho.1
      · exact Or.inr (readFilesMiss_reads_inner c fs fuel "" innerPath _ w w1 _ l ⟨"", ""⟩
          (by rw [h0]) hm2)
    · have hl : l = l2 ++ [Event.ParseSource] ∨
          l = l2 ++ [Event.ParseSource, Event.CompileResult] := by
        rcases hrest with ⟨_, _, _, _, hl⟩ | ⟨_, _, hl, _⟩
        · exact Or.inl hl
        · exact Or.inr hl
      rcases hmiss _ v l2 hr with h2 | h2
      · left
        rcases hl with hl | hl <;>
        · rw [hl, h2]; rfl
      · right
        rcases hl with hl | hl <;>
        · rw [hl]; exact List.mem_append_left _ h2

theorem readFileLoop_congr {R T : Type} (c : Code R T)
    (fs1 fs2 : String → Except Err String) (path : String) (opts : Options)
    (h : ∀ name, readCandidate fs1 opts name = readCandidate fs2 opts name)
    (v : String) (rest : List String) :
    readFileLoop c fs1 path opts v rest = readFileLoop c fs2 path opts v rest := by
  induction rest generalizing v with
  | nil =>
    unfold readFileLoop
    rw [h]
  | cons v2 rest ih =>
    unfold readFileLoop
    rw [h, ih v2]

theorem readFileLoop_no_osRead {R T : Type} (c : Code R T)
    (fs : String → Except Err String) (path : String) (opts : Options)
    (h : ∀ name n, Event.osRead n ∉ (readCandidate fs opts name).2)
    (v : String) (rest : List String) (n : String) :
    Event.osRead n ∉ (readFileLoop c fs path opts v rest).2 := by
  induction rest generalizing v with
  | nil =>
    unfold readFileLoop
    have := h (c.Join v (path ++ dot ++ opts.Extension)) n
    rcases hrc : readCandidate fs opts (c.Join v (path ++ dot ++ opts.Extension)) with ⟨r, l⟩
    rw [hrc] at this
    cases r <;> exact this
  | cons v2 rest ih =>
    unfold readFileLoop
    have := h (c.Join v (path ++ dot ++ opts.Extension)) n
    rcases hrc : readCandidate fs opts (c.Join v (path ++ dot ++ opts.Extension)) with ⟨r, l⟩
    rw [hrc] at this
    cases r with
    | ok d => exact this
    | error e =>
      simp only
      intro hm
      rcases List.mem_append.mp hm with hm | hm
      · exact this hm
      · exact ih v2 hm

/-- Claim C16. With an asset-loading function configured, `readFile` never touches the
filesystem: every candidate is read by the asset function alone (a failure of the asset
function is the failure of the candidate, with no fallback to the filesystem), `readFile`
returns the same result and the same events on any two filesystems, and no event is a
filesystem read. -/
theorem readFile_asset_only {R T : Type} (c : Code R T) (fs1 fs2 : String → Except Err String)
    (path : String) (opts : Options) (asset : String → Except Err String)
    (h : opts.Asset = some asset) :
    (∀ name, readCandidate fs1 opts name = (asset name, [Event.asset name])) ∧
    readFile c fs1 path opts = readFile c fs2 path opts ∧
    ∀ n, Event.osRead n ∉ (readFile c fs1 path opts).2 := by
  have hc : ∀ (fs : String → Except Err String) (name : String),
      readCandidate fs opts name = (asset name, [Event.asset name]) := by
    intro fs name
    unfold readCandidate
    rw [h]
  have hcong : ∀ name, readCandidate fs1 opts name = readCandidate fs2 opts name := by
    intro name
    rw [hc fs1, hc fs2]
  have hno : ∀ name n, Event.osRead n ∉ (readCandidate fs1 opts name).2 := by
    intro name n
    rw [hc fs1]
    simp
  refine ⟨hc fs1, ?_, ?_⟩
  · unfold readFile
    split
    · cases opts.BaseDirs with
      | nil => simp only [readFileLoop_congr c fs1 fs2 path opts hcong]
      | cons v rest => simp only [readFileLoop_congr c fs1 fs2 path opts hcong]
    · rfl
  · intro n
    unfold readFile
    split
    · cases opts.BaseDirs with
      | nil =>
        have := readFileLoop_no_osRead c fs1 path opts hno "" [] n
        simpa using this
      | cons v rest =>
        have := readFileLoop_no_osRead c fs1 path opts hno v rest n
        simpa using this
    · simp

/-- Claim C16 with the asset hook `sampleAsset`: the file `x.ace` that the filesystem has in
`D1` is not looked at, the asset of `D2` is returned, as on a filesystem without any
file. -/
theorem readFile_asset_only_witness :
    readFile sampleCode bothFs "x" assetOptions = readFile sampleCode noFs "x" assetOptions ∧
    (readFile sampleCode bothFs "x" assetOptions).1 = Except.ok ⟨"x", "asset two"⟩ :=
  ⟨(readFile_asset_only sampleCode bothFs noFs "x" assetOptions sampleAsset rfl).2.1, rfl⟩

/-! ## The assembled source -/

/-- Claim C17. On a miss of the source cache, the source a successful `readFiles` returns has
as base the file read for `basePath`, as inner the file read for `innerPath`, and as
includes the list `includes1` that `findIncludes` builds from the empty list for the base
content, followed by the files `new` that `findIncludes` appends to it for the inner
content: every include found via the base file comes before every include found only via
the inner file. -/
theorem readFiles_assembles {R T : Type} (c : Code R T) (fs : String → Except Err String)
    (fuel : Nat) (basePath innerPath : String) (opts : Options) (w w2 : World T)
    (src : source) (l : List Event) (hs : sourceMiss opts w basePath innerPath)
    (h : readFiles c fs fuel basePath innerPath opts w = some (Except.ok src, w2, l)) :
    (readFile c fs basePath opts).1 = Except.ok src.base ∧
    (readFile c fs innerPath opts).1 = Except.ok src.inner ∧
    src.base.path = basePath ∧ src.inner.path = innerPath ∧
    ∃ includes1 new l3 l4,
      findIncludes c fs opts fuel src.base.data [] src.base = some (Except.ok includes1, l3) ∧
      findIncludes c fs opts fuel src.inner.data includes1 src.inner =
        some (Except.ok (includes1 ++ new), l4) ∧
      src.includes = includes1 ++ new := by
  rw [readFiles_eq_miss c fs fuel basePath innerPath opts w hs] at h
  obtain ⟨l1, l2, l3, l4, includes1, hb, hi, h3, h4, _, _⟩ :=
    readFilesMiss_ok c fs fuel basePath innerPath opts w w2 src l h
  obtain ⟨l4b, _, _, _, _, hD⟩ := findIncludes_inv c fs opts fuel _ _ _ _ _ h4
  obtain ⟨new, hn, _, _⟩ := hD src.includes rfl
  have hbp := (readFile_log c fs basePath opts).2.2 src.base (by rw [hb])
  have hip := (readFile_log c fs innerPath opts).2.2 src.inner (by rw [hi])
  refine ⟨by rw [hb], by rw [hi], hbp, hip, includes1, new, l3, l4, h3, ?_, hn⟩
  rw [← hn]
  exact h4

/-- Claim C17 on base `a` (which includes `b`, which includes `a`) and inner `b`: the includes
found via the base file are `b`, `a`, and the inner file adds nothing. -/
theorem readFiles_assembles_witness :
    (readFile sampleCode cycleFs "a" (sampleOptions false true)).1 =
      Except.ok (⟨"a", "include = b"⟩ : File) :=
  (readFiles_assembles sampleCode cycleFs 3 "a" "b" (sampleOptions false true)
    emptyWorld emptyWorld
    ⟨⟨"a", "include = b"⟩, ⟨"b", "include = a"⟩, [⟨"b", "include = a"⟩, ⟨"a", "include = b"⟩]⟩
    [Event.readFile "a", Event.osRead "a.ace", Event.readFile "b", Event.osRead "b.ace",
      Event.findIncludes "a", Event.readFile "b", Event.osRead "b.ace",
      Event.findIncludes "b", Event.readFile "a", Event.osRead "a.ace",
      Event.findIncludes "a", Event.findIncludes "b"]
    (fun _ => rfl) rfl).1

/-! ## The order of the includes -/

theorem foundList_append (x : Found) (l : List Event) :
    foundList (match x with
      | none => none
      | some (r, l3) => some (r, l ++ l3)) = foundList x := by
  rcases x with _ | ⟨r, l3⟩
  · rfl
  · cases r <;> rfl

theorem foundList_cons (x : Found) (e : Event) :
    foundList (match x with
      | none => none
      | some (r, l3) => some (r, e :: l3)) = foundList x := by
  rcases x with _ | ⟨r, l3⟩
  · rfl
  · cases r <;> rfl

theorem findIncludesLoop_refines (descend : String → List File → File → Found)
    (read : String → Except Err File × List Event)
    (visit : List String → List File → File → Option (List String × List File))
    (resolve : String → Option File)
    (hd : ∀ (f : File) (i : List File) (vis : List String),
      (∀ p, p ∈ vis ↔ p ∈ paths i) →
      foundList (descend f.data i f) = (visit vis i f).map Prod.snd ∧
      ∀ v2 o2, visit vis i f = some (v2, o2) → ∀ p, p ∈ v2 ↔ p ∈ paths o2)
    (hr : ∀ p, resolve p = (match (read p).1 with
      | Except.ok f => some f
      | Except.error _ => none))
    (hp : ∀ p, ∀ f : File, (read p).1 = Except.ok f → f.path = p)
    (ps : List String) (includes : List File) (visited : List String)
    (hV : ∀ p, p ∈ visited ↔ p ∈ paths includes) :
    foundList (findIncludesLoop descend read ps includes) =
      (refSiblings visit resolve ps visited includes).map Prod.snd ∧
    ∀ v2 o2, refSiblings visit resolve ps visited includes = some (v2, o2) →
      ∀ p, p ∈ v2 ↔ p ∈ paths o2 := by
  induction ps generalizing includes visited with
  | nil =>
    refine ⟨rfl, ?_⟩
    intro v2 o2 h
    simp only [refSiblings, Option.some.injEq, Prod.mk.injEq] at h
    rw [← h.1, ← h.2]
    exact hV
  | cons q ps ih =>
    unfold findIncludesLoop refSiblings
    by_cases hq : hasFile includes q = true
    · have hq2 : q ∈ visited := (hV q).mpr ((hasFile_iff includes q).mp hq)
      rw [if_pos hq, if_pos hq2]
      exact ih includes visited hV
    · have hq2 : q ∉ visited := fun hm => hq ((hasFile_iff includes q).mpr ((hV q).mp hm))
      rw [if_neg hq, if_neg hq2, hr q]
      have hp1 := hp q
      rcases hrd : read q with ⟨rf, l1⟩
      rw [hrd] at hp1
      cases rf with
      | error e =>
        refine ⟨rfl, ?_⟩
        intro v2 o2 h
        cases h
      | ok f =>
        have hfp : f.path = q := hp1 f rfl
        have hV2 : ∀ p, p ∈ q :: visited ↔ p ∈ paths (includes ++ [f]) := by
          intro p
          rw [paths_append, List.mem_append, List.mem_cons, hV p]
          simp only [paths, List.map_cons, List.map_nil, List.mem_singleton, hfp]
          exact or_comm
        obtain ⟨hd1, hd2⟩ := hd f (includes ++ [f]) (q :: visited) hV2
        simp only
        rcases hdd : descend f.data (includes ++ [f]) f with _ | ⟨r2, l2⟩
        · rw [hdd] at hd1
          rcases hvv : visit (q :: visited) (includes ++ [f]) f with _ | ⟨v2, o2⟩
          · exact ⟨rfl, fun _ _ h => by cases h⟩
          · rw [hvv] at hd1
            cases hd1
        · rw [hdd] at hd1
          cases r2 with
          | error e =>
            rcases hvv : visit (q :: visited) (includes ++ [f]) f with _ | ⟨v2, o2⟩
            · exact ⟨rfl, fun _ _ h => by cases h⟩
            · rw [hvv] at hd1
              cases hd1
          | ok inc2 =>
            rcases hvv : visit (q :: visited) (includes ++ [f]) f with _ | ⟨v2, o2⟩
            · rw [hvv] at hd1
              cases hd1
            · rw [hvv] at hd1
              simp only [foundList, Option.map_some', Option.some.injEq] at hd1
              subst hd1
              simp only
              rw [foundList_append]
              exact ih inc2 v2 (hd2 v2 inc2 hvv)

/-- The list `findIncludes` builds is the list of the reference preorder, from any visited
set that has the paths of the accumulated list. -/
theorem findIncludes_refines {R T : Type} (c : Code R T) (fs : String → Except Err String)
    (opts : Options) (fuel : Nat) (t : File) (includes : List File) (visited : List String)
    (hV : ∀ p, p ∈ visited ↔ p ∈ paths includes) :
    foundList (findIncludes c fs opts fuel t.data includes t) =
      (refPreorder (resolveFile c fs opts) (declaredPaths c opts) fuel visited includes t).map
        Prod.snd ∧
    ∀ v2 o2, refPreorder (resolveFile c fs opts) (declaredPaths c opts) fuel visited includes t =
        some (v2, o2) → ∀ p, p ∈ v2 ↔ p ∈ paths o2 := by
  induction fuel generalizing t includes visited with
  | zero =>
    refine ⟨rfl, ?_⟩
    intro v2 o2 h
    cases h
  | succ n ih =>
    unfold findIncludes refPreorder declaredPaths
    cases hps : findIncludePaths c t.data opts t with
    | error e =>
      refine ⟨rfl, ?_⟩
      intro v2 o2 h
      cases h
    | ok ps =>
      simp only
      rw [foundList_cons]
      exact findIncludesLoop_refines _ _ _ _
        (fun f i vis hv => ih f i vis hv) (fun p => rfl)
        (fun p => (readFile_log c fs p opts).2.2) ps includes visited hV

/-- Claim C19. The includes `findIncludes` builds are in the order of a depth-first,
first-discovery-wins traversal of the include graph: for every file store, content and
accumulated list, whenever one of the two succeeds within the depth bound so does the other,
and `findIncludes` returns the list of the reference depth-first preorder with a visited set
keyed by path (`refPreorder`, started with the paths of the accumulated list as visited
set). -/
theorem findIncludes_is_preorder {R T : Type} (c : Code R T) (fs : String → Except Err String)
    (opts : Options) (fuel : Nat) (t : File) (includes : List File) :
    foundList (findIncludes c fs opts fuel t.data includes t) =
      (refPreorder (resolveFile c fs opts) (declaredPaths c opts) fuel (paths includes)
        includes t).map Prod.snd :=
  (findIncludes_refines c fs opts fuel t includes (paths includes) (fun _ => Iff.rfl)).1

/-- Claim C19 where `a` includes `b` and `c`, and `b` includes `d`: the reference preorder
from `a` is `b`, `d`, `c` (the nested include `d` of `b` comes before the sibling `c`), and
it is the list `findIncludes` returns. -/
theorem findIncludes_is_preorder_witness :
    (refPreorder (resolveFile sampleCode treeFs (sampleOptions false true))
        (declaredPaths sampleCode (sampleOptions false true)) 3 (paths []) []
        ⟨"a", "include = b\ninclude = c"⟩).map Prod.snd =
      some [⟨"b", "include = d"⟩, ⟨"d", "d"⟩, ⟨"c", "c"⟩] :=
  (findIncludes_is_preorder sampleCode treeFs (sampleOptions false true) 3
    ⟨"a", "include = b\ninclude = c"⟩ []).symm.trans rfl

/-- Claim C13 on a content with a CRLF and a lone CR: it gives what its all-LF version
gives. -/
theorem findIncludePaths_allLF_witness :
    findIncludePaths sampleCode "include = b\r\ninclude = c\rinclude = d"
        (sampleOptions false false) ⟨"a", ""⟩ =
      findIncludePaths sampleCode "include = b\ninclude = c\ninclude = d"
        (sampleOptions false false) ⟨"a", ""⟩ :=
  findIncludePaths_allLF sampleCode "include = b\r\ninclude = c\rinclude = d"
    (sampleOptions false false) ⟨"a", ""⟩

end Ace
